import Mathlib

/-!
# Verification of the Dapr workflow world: durable store, message queue, streamer

Shallow embedding of `packages/workflow-worlds-dapr/src/streamer.ts` (the
`DaprStorage`, `DaprStreamer` and `DaprWritableStream` classes) and
`packages/workflow-worlds-dapr/src/queue.ts` (the `DaprQueue` class), together
with proofs of the behavioural properties stated in the specification.

Modelling conventions:
* The Dapr state store is a flat key/value map.  Keys in the source are built
  by `buildKey(...parts)` which joins the parts with `:`; we keep the parts
  list itself (`Key := List String`) so that distinct families of keys
  (distinct constant first components) are distinct by construction.
* Numbers interpolated into keys and ids (template literals such as
  `${'{'}sequence{'}'}`) are rendered with `natLit`, a model of JavaScript's
  decimal rendering of a non-negative integer; we prove it injective via an
  explicit decoder.
* Timestamps (`Date.now()` and `new Date().toISOString()`) are modelled as
  natural numbers passed explicitly to each operation (ISO-8601 strings are
  order-isomorphic to the instants they denote).
* Opaque JSON payloads (`unknown` in TypeScript) are modelled by an abstract
  but decidable type of values, `JsonValue`.
* `Array.prototype.sort` with the comparator `(a, b) => a.sequence - b.sequence`
  is modelled by a stable insertion sort on the `sequence` projection.
-/

set_option autoImplicit false

namespace DaprWorld

/-- Opaque JSON payload (`unknown` in the source). -/
structure JsonValue where
  raw : String
deriving DecidableEq, Repr

/-! ## Decimal rendering of naturals (JavaScript number-to-string for ints) -/

/-- Digits of `n`, most significant first, computed with explicit fuel
(the fuel is always sufficient because `n / 10 < n` for `n ≥ 10`). -/
def decChars : Nat → Nat → List Char
  | 0, _ => []
  | fuel + 1, n =>
    if n < 10 then [Nat.digitChar n]
    else decChars fuel (n / 10) ++ [Nat.digitChar (n % 10)]

/-- Decimal rendering of a natural number, as in `${'{'}n{'}'}` in the source. -/
def natLit (n : Nat) : String :=
  ⟨decChars (n + 1) n⟩

/-- Decoder used to prove `natLit` injective. -/
def undecChars (l : List Char) : Nat :=
  l.foldl (fun a c => a * 10 + (c.toNat - 48)) 0

theorem undecChars_append (l1 l2 : List Char) :
    undecChars (l1 ++ l2) = (l2.foldl (fun a c => a * 10 + (c.toNat - 48)) (undecChars l1)) := by
  simp [undecChars, List.foldl_append]

theorem digitChar_toNat {d : Nat} (h : d < 10) : (Nat.digitChar d).toNat = 48 + d := by
  interval_cases d <;> rfl

theorem undecChars_decChars : ∀ fuel n, n < 10 ^ fuel → undecChars (decChars fuel n) = n := by
  intro fuel
  induction fuel with
  | zero => intro n h; simp only [decChars, undecChars, List.foldl]; omega
  | succ f ih =>
    intro n h
    by_cases h10 : n < 10
    · simp only [decChars, if_pos h10, undecChars, List.foldl]
      rw [digitChar_toNat h10]
      omega
    · simp only [decChars, if_neg h10]
      rw [undecChars_append]
      have hdiv : n / 10 < 10 ^ f := by
        rw [Nat.div_lt_iff_lt_mul (by norm_num)]
        calc n < 10 ^ (f + 1) := h
        _ = 10 ^ f * 10 := by ring
      rw [ih (n / 10) hdiv]
      simp only [List.foldl]
      rw [digitChar_toNat (Nat.mod_lt n (by norm_num))]
      omega

theorem undecChars_natLit (n : Nat) : undecChars (natLit n).data = n := by
  have h : n < 10 ^ (n + 1) := by
    calc n < 10 ^ n := Nat.lt_pow_self (by norm_num) n
    _ ≤ 10 ^ (n + 1) := Nat.pow_le_pow_right (by norm_num) (Nat.le_succ n)
  simpa [natLit] using undecChars_decChars (n + 1) n h

theorem natLit_injective : Function.Injective natLit := by
  intro m n h
  have := undecChars_natLit m
  rw [h, undecChars_natLit] at this
  omega

/-- Appending distinct decimal renderings to a common prefix yields distinct
strings (used for event ids and chunk ids/keys). -/
theorem append_natLit_inj {p : String} {i j : Nat} (h : p ++ natLit i = p ++ natLit j) :
    i = j := by
  apply natLit_injective
  have hd : (p ++ natLit i).data = (p ++ natLit j).data := by rw [h]
  simp only [String.data_append] at hd
  have := List.append_cancel_left hd
  exact String.ext this

/-! ## Stable sort by a numeric projection

Models `array.sort((a, b) => a.sequence - b.sequence)`: JavaScript's sort is
stable, and a left-fold insertion sort that places each new element after all
elements with a smaller-or-equal key is stable. -/

variable {α : Type}

/-- Insert `x` after every element of `acc` whose key is `≤` the key of `x`. -/
def insertBySeq (seq : α → Nat) (x : α) : List α → List α
  | [] => [x]
  | y :: ys => if seq y ≤ seq x then y :: insertBySeq seq x ys else x :: y :: ys

/-- Stable sort by the `seq` projection. -/
def sortBySeq (seq : α → Nat) (l : List α) : List α :=
  l.foldl (fun acc x => insertBySeq seq x acc) []

theorem insertBySeq_all_le (seq : α → Nat) (x : α) :
    ∀ acc : List α, (∀ y ∈ acc, seq y ≤ seq x) → insertBySeq seq x acc = acc ++ [x] := by
  intro acc
  induction acc with
  | nil => intro _; rfl
  | cons y ys ih =>
    intro h
    simp only [insertBySeq, if_pos (h y (List.mem_cons_self y ys))]
    rw [ih (fun z hz => h z (List.mem_cons_of_mem y hz))]
    simp

theorem sortBySeq_aux (seq : α → Nat) :
    ∀ l acc : List α, (acc ++ l).Pairwise (fun a b => seq a ≤ seq b) →
      l.foldl (fun acc x => insertBySeq seq x acc) acc = acc ++ l := by
  intro l
  induction l with
  | nil => intro acc _; simp
  | cons x xs ih =>
    intro acc h
    have hle : ∀ y ∈ acc, seq y ≤ seq x := by
      intro y hy
      have := List.pairwise_append.mp h
      exact this.2.2 y hy x (List.mem_cons_self x xs)
    simp only [List.foldl_cons]
    rw [insertBySeq_all_le seq x acc hle]
    have h' : ((acc ++ [x]) ++ xs).Pairwise (fun a b => seq a ≤ seq b) := by
      simpa using h
    rw [ih (acc ++ [x]) h']
    simp

/-- Sorting a list already (weakly) sorted by the key leaves it unchanged. -/
theorem sortBySeq_of_sorted (seq : α → Nat) (l : List α)
    (h : l.Pairwise (fun a b => seq a ≤ seq b)) : sortBySeq seq l = l := by
  simpa [sortBySeq] using sortBySeq_aux seq l [] (by simpa using h)

/-! ## Data model (`types.ts`) -/

/-- Model of `RunStatus` union type. -/
inductive RunStatus
  | pending | running | completed | failed | cancelled
deriving DecidableEq, Repr

/-- Model of `StepStatus` union type. -/
inductive StepStatus
  | pending | running | completed | failed | skipped
deriving DecidableEq, Repr

/-- Model of `WorkflowError` record. -/
structure WorkflowError where
  message : String
  code : Option String
  stack : Option String
  details : Option JsonValue
deriving DecidableEq, Repr

/-- Model of `Run` record.  ISO timestamps are modelled as `Nat` instants. -/
structure Run where
  id : String
  workflowId : String
  status : RunStatus
  input : JsonValue
  output : Option JsonValue
  error : Option WorkflowError
  createdAt : Nat
  updatedAt : Nat
  startedAt : Option Nat
  completedAt : Option Nat
  metadata : Option JsonValue
deriving DecidableEq, Repr

/-- Model of `Step` record. -/
structure Step where
  id : String
  runId : String
  stepName : String
  status : StepStatus
  input : Option JsonValue
  output : Option JsonValue
  error : Option WorkflowError
  attempts : Nat
  createdAt : Nat
  updatedAt : Nat
  startedAt : Option Nat
  completedAt : Option Nat
  cacheKey : Option String
deriving DecidableEq, Repr

/-- Model of `WorkflowEvent` record. -/
structure WorkflowEvent where
  id : String
  runId : String
  type : String
  data : JsonValue
  timestamp : Nat
  sequence : Nat
deriving DecidableEq, Repr

/-- Model of `Hook` record. -/
structure Hook where
  token : String
  runId : String
  stepId : String
  callbackUrl : Option String
  createdAt : Nat
  expiresAt : Option Nat
  invoked : Bool
  payload : Option JsonValue
deriving DecidableEq, Repr

/-- The `{runId, stepId}` value stored under a cache-key mapping. -/
structure CacheMapping where
  runId : String
  stepId : String
deriving DecidableEq, Repr

/-- Model of `StreamMetadata` record. -/
structure StreamMetadata where
  id : String
  isOpen : Bool
  createdAt : Nat
  closedAt : Option Nat
  chunkCount : Nat
  metadata : Option JsonValue
deriving DecidableEq, Repr

/-- Model of `StreamChunk` record. -/
structure StreamChunk where
  id : String
  streamId : String
  data : JsonValue
  sequence : Nat
  timestamp : Nat
deriving DecidableEq, Repr

/-! ## The Dapr state store

The source builds string keys with `buildKey(...parts)` (joining with `:`);
we keep the parts list.  Every call site passes the whole `StateKeyPrefixes`
constant as the first part, so distinct key families have distinct heads. -/

/-- A state-store key: the list of parts passed to `buildKey`. -/
abbrev Key := List String

/-- A typed stored value (the store holds JSON blobs; each key family only
ever stores one shape of value). -/
inductive Value
  | vRun (r : Run)
  | vIndex (ids : List String)
  | vNat (n : Nat)
  | vStep (s : Step)
  | vEvent (e : WorkflowEvent)
  | vCache (m : CacheMapping)
  | vHook (h : Hook)
  | vMeta (m : StreamMetadata)
  | vChunk (c : StreamChunk)
deriving DecidableEq, Repr

/-- The state store: a flat key/value map. -/
def Store := Key → Option Value

/-- Model of `client.state.save` of a single entry. -/
def Store.set (s : Store) (k : Key) (v : Value) : Store :=
  fun k' => if k' = k then some v else s k'

/-- Model of `client.state.delete`. -/
def Store.del (s : Store) (k : Key) : Store :=
  fun k' => if k' = k then none else s k'

/-- Model of `client.state.save` of a batch of entries (applied in order). -/
def Store.saveAll (s : Store) (entries : List (Key × Value)) : Store :=
  entries.foldl (fun st e => st.set e.1 e.2) s

/-- The empty state store. -/
def emptyStore : Store := fun _ => none

@[simp] theorem Store.set_same (s : Store) (k : Key) (v : Value) : s.set k v k = some v := by
  simp [Store.set]

@[simp] theorem Store.set_other (s : Store) (k k' : Key) (v : Value) (h : k' ≠ k) :
    s.set k v k' = s k' := by
  simp [Store.set, h]

@[simp] theorem Store.del_same (s : Store) (k : Key) : s.del k k = none := by
  simp [Store.del]

@[simp] theorem Store.del_other (s : Store) (k k' : Key) (h : k' ≠ k) :
    s.del k k' = s k' := by
  simp [Store.del, h]

/-- State-store keys (`StateKeyPrefixes` + `buildKey`). -/
def runKey (runId : String) : Key := ["workflow:run", runId]

/-- Model of `workflow:runs:index`, used directly as a key. -/
def runsIndexKey : Key := ["workflow:runs:index"]

def stepKey (runId stepId : String) : Key := ["workflow:step", runId, stepId]

def stepsIndexKey (runId : String) : Key := ["workflow:steps:index", runId]

def eventKey (runId eventId : String) : Key := ["workflow:event", runId, eventId]

def eventsIndexKey (runId : String) : Key := ["workflow:events:index", runId]

def eventCounterKey (runId : String) : Key := ["workflow:event:counter", runId]

def hookKey (token : String) : Key := ["workflow:hook", token]

def cacheMapKey (cacheKey : String) : Key := ["workflow:cache", cacheKey]

def streamKey (streamId : String) : Key := ["workflow:stream", streamId]

def chunkKey (streamId : String) (sequence : Nat) : Key :=
  ["workflow:stream:chunks", streamId, natLit sequence]

def streamCounterKey (streamId : String) : Key := ["workflow:stream:counter", streamId]

/-- A state transaction operation (`StateOperation` in `types.ts`). -/
inductive StateOperation
  | upsert (key : Key) (value : Value)
  | del (key : Key)
deriving Repr

/-- Model of `DaprStorage.executeTransaction`: groups the operations into saves and
deletes, applies all saves (in order) and then all deletes (in order).
The source notes this is *not* actually atomic. -/
def executeTransaction (s : Store) (operations : List StateOperation) : Store :=
  let saves := operations.filterMap fun op =>
    match op with
    | .upsert k v => some (k, v)
    | .del _ => none
  let deletes := operations.filterMap fun op =>
    match op with
    | .upsert _ _ => none
    | .del k => some k
  deletes.foldl Store.del (s.saveAll saves)

/-! ## DaprStorage (`streamer.ts`, second half)

Each method is a pure function of the store (plus an explicit `now` where the
source reads the clock).  Methods that `throw` return `Except String`. -/

/-- Model of `getRunsIndex`: `(result as string[]) ?? []`. -/
def DaprStorage.getRunsIndex (s : Store) : List String :=
  match s runsIndexKey with
  | some (.vIndex ids) => ids
  | _ => []

/-- Model of `getStepsIndex`. -/
def DaprStorage.getStepsIndex (s : Store) (runId : String) : List String :=
  match s (stepsIndexKey runId) with
  | some (.vIndex ids) => ids
  | _ => []

/-- Model of `getEventsIndex`. -/
def DaprStorage.getEventsIndex (s : Store) (runId : String) : List String :=
  match s (eventsIndexKey runId) with
  | some (.vIndex ids) => ids
  | _ => []

/-- Model of `createRun`: upserts the run record, appends the id to the runs index
unless already present (one transaction), then initialises the per-run steps
index, events index and event counter. -/
def DaprStorage.createRun (s : Store) (run : Run) : Store :=
  let operations : List StateOperation := [.upsert (runKey run.id) (.vRun run)]
  let currentIndex := DaprStorage.getRunsIndex s
  let operations :=
    if run.id ∈ currentIndex then operations
    else operations ++ [.upsert runsIndexKey (.vIndex (currentIndex ++ [run.id]))]
  let s1 := executeTransaction s operations
  s1.saveAll
    [(stepsIndexKey run.id, .vIndex []),
     (eventsIndexKey run.id, .vIndex []),
     (eventCounterKey run.id, .vNat 0)]

/-- Model of `getRun`: absence is `null`, not an error. -/
def DaprStorage.getRun (s : Store) (runId : String) : Option Run :=
  match s (runKey runId) with
  | some (.vRun r) => some r
  | _ => none

/-- Model of `Partial<Run>`: a field is `none` when absent from the update object.
For fields that are themselves optional in `Run`, a present field carries an
`Option` (so `some none` models explicitly assigning `undefined`). -/
structure RunUpdates where
  id : Option String := none
  workflowId : Option String := none
  status : Option RunStatus := none
  input : Option JsonValue := none
  output : Option (Option JsonValue) := none
  error : Option (Option WorkflowError) := none
  createdAt : Option Nat := none
  updatedAt : Option Nat := none
  startedAt : Option (Option Nat) := none
  completedAt : Option (Option Nat) := none
  metadata : Option (Option JsonValue) := none
deriving DecidableEq, Repr

/-- The object spread `{ ...existing, ...updates }` for runs. -/
def applyRunUpdates (existing : Run) (updates : RunUpdates) : Run where
  id := updates.id.getD existing.id
  workflowId := updates.workflowId.getD existing.workflowId
  status := updates.status.getD existing.status
  input := updates.input.getD existing.input
  output := updates.output.getD existing.output
  error := updates.error.getD existing.error
  createdAt := updates.createdAt.getD existing.createdAt
  updatedAt := updates.updatedAt.getD existing.updatedAt
  startedAt := updates.startedAt.getD existing.startedAt
  completedAt := updates.completedAt.getD existing.completedAt
  metadata := updates.metadata.getD existing.metadata

/-- Model of `updateRun`: throws `Run not found` if absent, otherwise writes back
`{ ...existing, ...updates, updatedAt: new Date().toISOString() }`. -/
def DaprStorage.updateRun (s : Store) (runId : String) (updates : RunUpdates)
    (now : Nat) : Except String Store :=
  match DaprStorage.getRun s runId with
  | none => .error ("Run not found: " ++ runId)
  | some existing =>
    let updated := { applyRunUpdates existing updates with updatedAt := now }
    .ok (s.saveAll [(runKey runId, .vRun updated)])

/-- Model of `ListRunsOptions`.  The `cursor` is a stringified integer offset in the
source (`parseInt(options.cursor, 10)`); we model it as the offset itself. -/
structure ListRunsOptions where
  workflowId : Option String := none
  status : Option RunStatus := none
  limit : Option Nat := none
  cursor : Option Nat := none
deriving DecidableEq, Repr

/-- Model of `ListResult<Run>`. -/
structure ListResult where
  items : List Run
  nextCursor : Option Nat
  totalCount : Option Nat
deriving DecidableEq, Repr

/-- The per-run filter conditions in the `listRuns` loop.  Note the
truthiness check on `options?.workflowId`: an empty-string filter is skipped. -/
def runMatches (options : ListRunsOptions) (run : Run) : Bool :=
  (match options.workflowId with
   | some w => !(w ≠ "" && run.workflowId ≠ w)
   | none => true) &&
  (match options.status with
   | some st => !(run.status ≠ st)
   | none => true)

/-- The `for … of runIds` loop of `listRuns`: stop once `limit` matching runs
have been collected; skip missing runs and runs failing the filters. -/
def listRunsLoop (s : Store) (options : ListRunsOptions) (limit : Nat) :
    List String → List Run → List Run
  | [], runs => runs
  | runId :: rest, runs =>
    if limit ≤ runs.length then runs
    else
      match DaprStorage.getRun s runId with
      | none => listRunsLoop s options limit rest runs
      | some run =>
        if runMatches options run then listRunsLoop s options limit rest (runs ++ [run])
        else listRunsLoop s options limit rest runs

/-- Model of `listRuns`: slice the runs index at the cursor, collect up to `limit`
matching runs, and report `hasMore` by comparing `cursor + limit` with the
length of the unfiltered index. -/
def DaprStorage.listRuns (s : Store) (options : ListRunsOptions) : ListResult :=
  let limit := options.limit.getD 100
  let cursor := options.cursor.getD 0
  let allRunIds := DaprStorage.getRunsIndex s
  let runIds := allRunIds.drop cursor
  let runs := listRunsLoop s options limit runIds []
  let hasMore := cursor + limit < allRunIds.length
  { items := runs
    nextCursor := if hasMore then some (cursor + limit) else none
    totalCount := some allRunIds.length }

/-- JavaScript truthiness of an optional string field. -/
def strTruthy : Option String → Bool
  | some k => k ≠ ""
  | none => false

/-- Model of `createStep`: upserts the step record, appends to the run's steps index
unless present, and writes the cache mapping when `step.cacheKey` is truthy. -/
def DaprStorage.createStep (s : Store) (step : Step) : Store :=
  let operations : List StateOperation :=
    [.upsert (stepKey step.runId step.id) (.vStep step)]
  let currentIndex := DaprStorage.getStepsIndex s step.runId
  let operations :=
    if step.id ∈ currentIndex then operations
    else operations ++
      [.upsert (stepsIndexKey step.runId) (.vIndex (currentIndex ++ [step.id]))]
  let operations :=
    match step.cacheKey with
    | some ck =>
      if ck ≠ "" then
        operations ++ [.upsert (cacheMapKey ck) (.vCache ⟨step.runId, step.id⟩)]
      else operations
    | none => operations
  executeTransaction s operations

/-- Model of `getStep`. -/
def DaprStorage.getStep (s : Store) (runId stepId : String) : Option Step :=
  match s (stepKey runId stepId) with
  | some (.vStep st) => some st
  | _ => none

/-- Model of `Partial<Step>` (same conventions as `RunUpdates`). -/
structure StepUpdates where
  id : Option String := none
  runId : Option String := none
  stepName : Option String := none
  status : Option StepStatus := none
  input : Option (Option JsonValue) := none
  output : Option (Option JsonValue) := none
  error : Option (Option WorkflowError) := none
  attempts : Option Nat := none
  createdAt : Option Nat := none
  updatedAt : Option Nat := none
  startedAt : Option (Option Nat) := none
  completedAt : Option (Option Nat) := none
  cacheKey : Option (Option String) := none
deriving DecidableEq, Repr

/-- The object spread `{ ...existing, ...updates }` for steps. -/
def applyStepUpdates (existing : Step) (updates : StepUpdates) : Step where
  id := updates.id.getD existing.id
  runId := updates.runId.getD existing.runId
  stepName := updates.stepName.getD existing.stepName
  status := updates.status.getD existing.status
  input := updates.input.getD existing.input
  output := updates.output.getD existing.output
  error := updates.error.getD existing.error
  attempts := updates.attempts.getD existing.attempts
  createdAt := updates.createdAt.getD existing.createdAt
  updatedAt := updates.updatedAt.getD existing.updatedAt
  startedAt := updates.startedAt.getD existing.startedAt
  completedAt := updates.completedAt.getD existing.completedAt
  cacheKey := updates.cacheKey.getD existing.cacheKey

/-- The guard `updates.cacheKey && updates.cacheKey !== existing.cacheKey`:
the new cache key must be present, truthy, and differ from the old value. -/
def cacheKeyChanged (existing : Step) (updates : StepUpdates) : Option String :=
  match updates.cacheKey with
  | some (some ck) => if ck ≠ "" && existing.cacheKey ≠ some ck then some ck else none
  | _ => none

/-- Model of `updateStep`: throws `Step not found` if absent; writes the merged record
with a fresh `updatedAt`; when the cache key changes, deletes the old mapping
(if the old key was truthy) and upserts the new one. -/
def DaprStorage.updateStep (s : Store) (runId stepId : String)
    (updates : StepUpdates) (now : Nat) : Except String Store :=
  match DaprStorage.getStep s runId stepId with
  | none => .error ("Step not found: " ++ runId ++ "/" ++ stepId)
  | some existing =>
    let updated := { applyStepUpdates existing updates with updatedAt := now }
    let operations : List StateOperation :=
      [.upsert (stepKey runId stepId) (.vStep updated)]
    let operations :=
      match cacheKeyChanged existing updates with
      | some ck =>
        let operations :=
          match existing.cacheKey with
          | some old =>
            if old ≠ "" then operations ++ [.del (cacheMapKey old)] else operations
          | none => operations
        operations ++ [.upsert (cacheMapKey ck) (.vCache ⟨runId, stepId⟩)]
      | none => operations
    .ok (executeTransaction s operations)

/-- Model of `getStepByCacheKey`: one indirect lookup through the cache mapping. -/
def DaprStorage.getStepByCacheKey (s : Store) (cacheKey : String) : Option Step :=
  match s (cacheMapKey cacheKey) with
  | some (.vCache m) => DaprStorage.getStep s m.runId m.stepId
  | _ => none

/-- Model of `Omit<WorkflowEvent, 'id' | 'sequence'>`: the caller-supplied part of an
event. -/
structure EventInput where
  runId : String
  type : String
  data : JsonValue
  timestamp : Nat
deriving DecidableEq, Repr

/-- The event counter read: `typeof counterResult === 'number' ? … : 0`. -/
def DaprStorage.readEventCounter (s : Store) (runId : String) : Nat :=
  match s (eventCounterKey runId) with
  | some (.vNat n) => n
  | _ => 0

/-- The generated event id `${'{'}event.runId{'}'}-evt-${'{'}sequence{'}'}`. -/
def mkEventId (runId : String) (sequence : Nat) : String :=
  runId ++ "-evt-" ++ natLit sequence

/-- Model of `createEvent`: allocates `sequence = counter + 1`, writes the event, the
bumped counter and the (unconditionally appended) events index in one
transaction, and returns the full event. -/
def DaprStorage.createEvent (s : Store) (event : EventInput) :
    Store × WorkflowEvent :=
  let currentCounter := DaprStorage.readEventCounter s event.runId
  let sequence := currentCounter + 1
  let eventId := mkEventId event.runId sequence
  let fullEvent : WorkflowEvent :=
    { id := eventId, runId := event.runId, type := event.type,
      data := event.data, timestamp := event.timestamp, sequence := sequence }
  let currentIndex := DaprStorage.getEventsIndex s event.runId
  let operations : List StateOperation :=
    [.upsert (eventKey event.runId eventId) (.vEvent fullEvent),
     .upsert (eventCounterKey event.runId) (.vNat sequence),
     .upsert (eventsIndexKey event.runId) (.vIndex (currentIndex ++ [eventId]))]
  (executeTransaction s operations, fullEvent)

/-- Model of `getEvents`: read every event named by the index, keep those with
`sequence > afterSequence` (or all when `afterSequence` is `undefined`),
sorted ascending by sequence. -/
def DaprStorage.getEvents (s : Store) (runId : String)
    (afterSequence : Option Nat) : List WorkflowEvent :=
  let eventIds := DaprStorage.getEventsIndex s runId
  let events := eventIds.filterMap fun eventId =>
    match s (eventKey runId eventId) with
    | some (.vEvent e) =>
      match afterSequence with
      | none => some e
      | some k => if k < e.sequence then some e else none
    | _ => none
  sortBySeq WorkflowEvent.sequence events

/-- Sequential `createEvent` calls, returning the final store and the events
in creation order. -/
def createEvents (s : Store) : List EventInput → Store × List WorkflowEvent
  | [] => (s, [])
  | e :: rest =>
    let (s1, ev) := DaprStorage.createEvent s e
    let (s2, evs) := createEvents s1 rest
    (s2, ev :: evs)

/-! ## General lemmas about the storage operations -/

theorem getRun_saveAll_single (s : Store) (runId : String) (v : Run) :
    DaprStorage.getRun (s.saveAll [(runKey runId, .vRun v)]) runId = some v := by
  simp [DaprStorage.getRun, Store.saveAll]

/-- Model of `updateRun` on an existing run: the written record is the merge with a
fresh `updatedAt`, and all other run records are untouched. -/
theorem updateRun_ok (s : Store) (runId : String) (updates : RunUpdates) (now : Nat)
    (existing : Run) (h : DaprStorage.getRun s runId = some existing) :
    DaprStorage.updateRun s runId updates now =
      .ok (s.saveAll [(runKey runId,
        .vRun { applyRunUpdates existing updates with updatedAt := now })]) := by
  simp [DaprStorage.updateRun, h]

/-! ## Claim C6: `updateRun` -/

/-- C6.  `updateRun` on a nonexistent run id raises `Run not found` (in this
pure embedding the failing call returns no store, so the store is unchanged);
on an existing run the stored record keeps every field not mentioned in
`updates` equal to its previous value, applies the mentioned fields, sets
`updatedAt` to the current instant (hence `≥` the previous `updatedAt`
whenever the clock has not gone backwards), and leaves every other run
record untouched. -/
theorem c6_updateRun_spec (s : Store) (runId : String) (updates : RunUpdates)
    (now : Nat) :
    (DaprStorage.getRun s runId = none →
      DaprStorage.updateRun s runId updates now =
        .error ("Run not found: " ++ runId)) ∧
    (∀ existing, DaprStorage.getRun s runId = some existing →
      ∃ s', DaprStorage.updateRun s runId updates now = .ok s' ∧
        DaprStorage.getRun s' runId =
          some { applyRunUpdates existing updates with updatedAt := now } ∧
        (∀ other, other ≠ runId →
          DaprStorage.getRun s' other = DaprStorage.getRun s other) ∧
        (let merged := { applyRunUpdates existing updates with updatedAt := now }
         merged.updatedAt = now ∧
         (existing.updatedAt ≤ now → existing.updatedAt ≤ merged.updatedAt) ∧
         (updates.workflowId = none → merged.workflowId = existing.workflowId) ∧
         (∀ v, updates.workflowId = some v → merged.workflowId = v) ∧
         (updates.status = none → merged.status = existing.status) ∧
         (∀ v, updates.status = some v → merged.status = v) ∧
         (updates.input = none → merged.input = existing.input) ∧
         (∀ v, updates.input = some v → merged.input = v) ∧
         (updates.output = none → merged.output = existing.output) ∧
         (∀ v, updates.output = some v → merged.output = v) ∧
         (updates.error = none → merged.error = existing.error) ∧
         (∀ v, updates.error = some v → merged.error = v) ∧
         (updates.createdAt = none → merged.createdAt = existing.createdAt) ∧
         (∀ v, updates.createdAt = some v → merged.createdAt = v) ∧
         (updates.startedAt = none → merged.startedAt = existing.startedAt) ∧
         (∀ v, updates.startedAt = some v → merged.startedAt = v) ∧
         (updates.completedAt = none → merged.completedAt = existing.completedAt) ∧
         (∀ v, updates.completedAt = some v → merged.completedAt = v) ∧
         (updates.metadata = none → merged.metadata = existing.metadata) ∧
         (∀ v, updates.metadata = some v → merged.metadata = v))) := by
  constructor
  · intro h
    simp [DaprStorage.updateRun, h]
  · intro existing h
    refine ⟨_, updateRun_ok s runId updates now existing h, ?_, ?_, ?_⟩
    · exact getRun_saveAll_single ..
    · intro other hother
      simp [DaprStorage.getRun, Store.saveAll, Store.set, runKey, hother]
    · refine ⟨rfl, fun h' => h', ?_, ?_, ?_, ?_, ?_, ?_, ?_, ?_, ?_, ?_, ?_, ?_,
        ?_, ?_, ?_, ?_, ?_, ?_⟩ <;>
        (first
          | (intro hu; simp [applyRunUpdates, hu])
          | (intro v hu; simp [applyRunUpdates, hu]))

/-- Witness fixtures: a store holding one run `r1`. -/
def runW : Run :=
  { id := "r1", workflowId := "wf", status := .pending, input := ⟨"in"⟩,
    output := none, error := none, createdAt := 1, updatedAt := 1,
    startedAt := none, completedAt := none, metadata := none }

def storeW : Store := DaprStorage.createRun emptyStore runW

def runUpdatesW : RunUpdates := { status := some .running }

/-- Witness for C6 at a concrete store: the missing-id branch errors, the
existing-id branch merges. -/
theorem c6_updateRun_spec_witness :
    (DaprStorage.getRun storeW "r2" = none ∧
      DaprStorage.updateRun storeW "r2" runUpdatesW 5 =
        .error ("Run not found: " ++ "r2")) ∧
    (DaprStorage.getRun storeW "r1" = some runW ∧
      ∃ s', DaprStorage.updateRun storeW "r1" runUpdatesW 5 = .ok s' ∧
        DaprStorage.getRun s' "r1" =
          some { applyRunUpdates runW runUpdatesW with updatedAt := 5 }) :=
  ⟨⟨by decide, (c6_updateRun_spec storeW "r2" runUpdatesW 5).1 (by decide)⟩,
   ⟨by decide,
    by
      obtain ⟨s', h1, h2, -⟩ :=
        (c6_updateRun_spec storeW "r1" runUpdatesW 5).2 runW (by decide)
      exact ⟨s', h1, h2⟩⟩⟩

/-! ## Structural lemmas for `createRun` and `listRuns` -/

/-- The store produced by `createRun`, written out as iterated single-key
updates. -/
theorem createRun_eq (s : Store) (run : Run) :
    DaprStorage.createRun s run =
      ((((if run.id ∈ DaprStorage.getRunsIndex s then
            s.set (runKey run.id) (.vRun run)
          else
            (s.set (runKey run.id) (.vRun run)).set runsIndexKey
              (.vIndex (DaprStorage.getRunsIndex s ++ [run.id]))).set
          (stepsIndexKey run.id) (.vIndex [])).set
          (eventsIndexKey run.id) (.vIndex [])).set
          (eventCounterKey run.id) (.vNat 0)) := by
  by_cases hmem : run.id ∈ DaprStorage.getRunsIndex s <;>
    simp [DaprStorage.createRun, executeTransaction, Store.saveAll, hmem]

theorem createRun_getRun_self (s : Store) (run : Run) :
    DaprStorage.getRun (DaprStorage.createRun s run) run.id = some run := by
  rw [createRun_eq]
  by_cases hmem : run.id ∈ DaprStorage.getRunsIndex s <;>
    simp [DaprStorage.getRun, Store.set, hmem, runKey, runsIndexKey,
      stepsIndexKey, eventsIndexKey, eventCounterKey]

theorem createRun_getRun_other (s : Store) (run : Run) (id : String)
    (h : id ≠ run.id) :
    DaprStorage.getRun (DaprStorage.createRun s run) id =
      DaprStorage.getRun s id := by
  rw [createRun_eq]
  by_cases hmem : run.id ∈ DaprStorage.getRunsIndex s <;>
    simp [DaprStorage.getRun, Store.set, hmem, runKey, runsIndexKey,
      stepsIndexKey, eventsIndexKey, eventCounterKey, h]

theorem createRun_index (s : Store) (run : Run) :
    DaprStorage.getRunsIndex (DaprStorage.createRun s run) =
      (if run.id ∈ DaprStorage.getRunsIndex s then DaprStorage.getRunsIndex s
       else DaprStorage.getRunsIndex s ++ [run.id]) := by
  rw [createRun_eq]
  by_cases hmem : run.id ∈ DaprStorage.getRunsIndex s <;>
    simp only [hmem, if_true, if_false, ite_true, ite_false] <;>
    · conv_lhs => simp only [DaprStorage.getRunsIndex, Store.set]
      simp [runKey, runsIndexKey, stepsIndexKey, eventsIndexKey,
        eventCounterKey, DaprStorage.getRunsIndex]

theorem createRun_stepsIndex (s : Store) (run : Run) :
    DaprStorage.getStepsIndex (DaprStorage.createRun s run) run.id = [] := by
  rw [createRun_eq]
  by_cases hmem : run.id ∈ DaprStorage.getRunsIndex s <;>
    simp [DaprStorage.getStepsIndex, Store.set, hmem, stepsIndexKey,
      eventsIndexKey, eventCounterKey]

theorem createRun_eventsIndex (s : Store) (run : Run) :
    DaprStorage.getEventsIndex (DaprStorage.createRun s run) run.id = [] := by
  rw [createRun_eq]
  by_cases hmem : run.id ∈ DaprStorage.getRunsIndex s <;>
    simp [DaprStorage.getEventsIndex, Store.set, hmem, eventsIndexKey,
      eventCounterKey]

theorem createRun_eventCounter (s : Store) (run : Run) :
    DaprStorage.readEventCounter (DaprStorage.createRun s run) run.id = 0 := by
  rw [createRun_eq]
  by_cases hmem : run.id ∈ DaprStorage.getRunsIndex s <;>
    simp [DaprStorage.readEventCounter, Store.set, hmem, eventCounterKey]

/-- The runs actually collected by the `listRuns` scan, in index order. -/
def matchingRuns (s : Store) (options : ListRunsOptions) (ids : List String) :
    List Run :=
  ids.filterMap fun id =>
    match DaprStorage.getRun s id with
    | some run => if runMatches options run then some run else none
    | none => none

/-- The `listRuns` loop collects, after `acc`, the next
`limit - acc.length` matching runs of the remaining ids — however far down
the index they sit. -/
theorem listRunsLoop_eq (s : Store) (options : ListRunsOptions) (limit : Nat) :
    ∀ (ids : List String) (acc : List Run),
      listRunsLoop s options limit ids acc =
        acc ++ (matchingRuns s options ids).take (limit - acc.length) := by
  intro ids
  induction ids with
  | nil => intro acc; simp [listRunsLoop, matchingRuns]
  | cons id rest ih =>
    intro acc
    by_cases hfull : limit ≤ acc.length
    · have h0 : limit - acc.length = 0 := by omega
      simp [listRunsLoop, hfull, h0]
    · cases hrun : DaprStorage.getRun s id with
      | none =>
        have hstep : listRunsLoop s options limit (id :: rest) acc =
            listRunsLoop s options limit rest acc := by
          simp [listRunsLoop, hfull, hrun]
        rw [hstep, ih]
        simp [matchingRuns, hrun]
      | some run =>
        by_cases hmatch : runMatches options run
        · have hstep : listRunsLoop s options limit (id :: rest) acc =
              listRunsLoop s options limit rest (acc ++ [run]) := by
            simp [listRunsLoop, hfull, hrun, hmatch]
          rw [hstep, ih]
          have htake : limit - acc.length = (limit - (acc.length + 1)) + 1 := by
            omega
          simp only [matchingRuns, List.filterMap_cons, hrun, hmatch, if_true,
            List.length_append, List.length_singleton, htake,
            List.take_succ_cons, List.append_assoc, List.singleton_append]
        · have hstep : listRunsLoop s options limit (id :: rest) acc =
              listRunsLoop s options limit rest acc := by
            simp [listRunsLoop, hfull, hrun, hmatch]
          rw [hstep, ih]
          simp [matchingRuns, hrun, hmatch]

/-- Characterisation of `listRuns` (also the amended form of claim C4). -/
theorem listRuns_eq (s : Store) (options : ListRunsOptions) :
    DaprStorage.listRuns s options =
      { items := (matchingRuns s options
          ((DaprStorage.getRunsIndex s).drop (options.cursor.getD 0))).take
            (options.limit.getD 100)
        nextCursor :=
          if options.cursor.getD 0 + options.limit.getD 100 <
              (DaprStorage.getRunsIndex s).length then
            some (options.cursor.getD 0 + options.limit.getD 100)
          else none
        totalCount := some (DaprStorage.getRunsIndex s).length } := by
  simp [DaprStorage.listRuns, listRunsLoop_eq]

/-! ## Claim C5: `createRun` -/

/-- Every run record is stored under the key of its own id (maintained by
every run write in the source, which always uses `buildKey(RUN, run.id)`). -/
def WellFormedRuns (s : Store) : Prop :=
  ∀ id r, DaprStorage.getRun s id = some r → r.id = id

theorem filter_filterMap_getRun_zero (s : Store) (rid : String)
    (hwf : WellFormedRuns s) :
    ∀ ids : List String, ids.count rid = 0 →
      ((ids.filterMap fun id => DaprStorage.getRun s id).filter
        (fun x => x.id = rid)) = [] := by
  intro ids
  induction ids with
  | nil => intro _; simp
  | cons id rest ih =>
    intro hcount
    rw [List.count_cons] at hcount
    have hid : id ≠ rid := by
      intro h; simp [h] at hcount
    have hrest : rest.count rid = 0 := by omega
    cases hrun : DaprStorage.getRun s id with
    | none => simpa [List.filterMap_cons, hrun] using ih hrest
    | some r =>
      have : r.id = id := hwf id r hrun
      simp [List.filterMap_cons, hrun, List.filter_cons, this, hid, ih hrest]

theorem filter_filterMap_getRun_one (s : Store) (rid : String) (rn : Run)
    (hwf : WellFormedRuns s) (hrn : DaprStorage.getRun s rid = some rn) :
    ∀ ids : List String, ids.count rid = 1 →
      ((ids.filterMap fun id => DaprStorage.getRun s id).filter
        (fun x => x.id = rid)) = [rn] := by
  intro ids
  induction ids with
  | nil => intro h; simp at h
  | cons id rest ih =>
    intro hcount
    rw [List.count_cons] at hcount
    by_cases hid : id = rid
    · subst hid
      have hrest : rest.count id = 0 := by simp at hcount; omega
      have hrnid : rn.id = id := hwf id rn hrn
      simp [List.filterMap_cons, hrn, List.filter_cons, hrnid,
        filter_filterMap_getRun_zero s id hwf rest hrest]
    · have hrest : rest.count rid = 1 := by simp [hid] at hcount; omega
      cases hrun : DaprStorage.getRun s id with
      | none => simpa [List.filterMap_cons, hrun] using ih hrest
      | some r =>
        have : r.id = id := hwf id r hrun
        simp [List.filterMap_cons, hrun, List.filter_cons, this, hid, ih hrest]

/-- With no filters, the scan collects exactly the runs that exist. -/
theorem matchingRuns_no_filters (s : Store) (m : Option Nat) (ids : List String) :
    matchingRuns s { limit := m } ids =
      ids.filterMap fun id => DaprStorage.getRun s id := by
  unfold matchingRuns
  congr 1
  funext id
  cases DaprStorage.getRun s id <;> simp [runMatches]

/-- C5.  `createRun` (from any store where the runs index mentions `run.id`
at most once — true in particular after any earlier `createRun` of the same
id) makes `getRun run.id` return exactly the given record, leaves `run.id`
appearing exactly once in the runs index, and hence exactly once in the full
`listRuns` result set; it also initialises an empty steps index, an empty
events index and a zero event-sequence counter for that run. -/
theorem c5_createRun_spec (s : Store) (run : Run)
    (hcount : (DaprStorage.getRunsIndex s).count run.id ≤ 1)
    (hwf : WellFormedRuns s) :
    DaprStorage.getRun (DaprStorage.createRun s run) run.id = some run ∧
    (DaprStorage.getRunsIndex (DaprStorage.createRun s run)).count run.id = 1 ∧
    DaprStorage.getStepsIndex (DaprStorage.createRun s run) run.id = [] ∧
    DaprStorage.getEventsIndex (DaprStorage.createRun s run) run.id = [] ∧
    DaprStorage.readEventCounter (DaprStorage.createRun s run) run.id = 0 ∧
    WellFormedRuns (DaprStorage.createRun s run) ∧
    (∀ m, (DaprStorage.getRunsIndex (DaprStorage.createRun s run)).length ≤ m →
      ((DaprStorage.listRuns (DaprStorage.createRun s run)
          { limit := some m }).items.filter (fun x => x.id = run.id)) = [run]) := by
  have hself := createRun_getRun_self s run
  have hwf' : WellFormedRuns (DaprStorage.createRun s run) := by
    intro id r h
    by_cases hid : id = run.id
    · subst hid
      rw [hself] at h
      injection h with h
      rw [← h]
    · rw [createRun_getRun_other s run id hid] at h
      exact hwf id r h
  have hcount' :
      (DaprStorage.getRunsIndex (DaprStorage.createRun s run)).count run.id = 1 := by
    rw [createRun_index]
    by_cases hmem : run.id ∈ DaprStorage.getRunsIndex s
    · have h1 : 0 < (DaprStorage.getRunsIndex s).count run.id :=
        List.count_pos_iff.mpr hmem
      simp only [hmem, if_true]
      omega
    · have h0 : (DaprStorage.getRunsIndex s).count run.id = 0 :=
        List.count_eq_zero.mpr hmem
      simp [hmem, h0]
  refine ⟨hself, hcount', createRun_stepsIndex s run, createRun_eventsIndex s run,
    createRun_eventCounter s run, hwf', ?_⟩
  intro m hm
  rw [listRuns_eq]
  simp only [Option.getD_none, Option.getD_some, List.drop_zero]
  rw [matchingRuns_no_filters]
  have hlen :
      ((DaprStorage.getRunsIndex (DaprStorage.createRun s run)).filterMap
        fun id => DaprStorage.getRun (DaprStorage.createRun s run) id).length ≤ m :=
    le_trans (List.length_filterMap_le _ _) hm
  rw [List.take_of_length_le hlen]
  exact filter_filterMap_getRun_one _ run.id run hwf' hself _ hcount'

/-- Witness for C5: creating the same run twice on the empty store still
leaves its id exactly once in the index. -/
theorem c5_createRun_spec_witness :
    ((DaprStorage.getRunsIndex storeW).count runW.id ≤ 1 ∧ WellFormedRuns storeW) ∧
    (DaprStorage.getRun (DaprStorage.createRun storeW runW) runW.id = some runW ∧
      (DaprStorage.getRunsIndex (DaprStorage.createRun storeW runW)).count runW.id
        = 1) := by
  have hwf : WellFormedRuns storeW := by
    intro id r h
    revert h
    by_cases hid : id = "r1"
    · subst hid; intro h
      have hr : r = runW := by
        have hx : DaprStorage.getRun storeW "r1" = some runW := by decide
        rw [hx] at h; injection h with h; exact h.symm
      rw [hr]; rfl
    · intro h
      exfalso
      have hx : DaprStorage.getRun storeW id = none := by
        show DaprStorage.getRun (DaprStorage.createRun emptyStore runW) id = none
        rw [createRun_getRun_other emptyStore runW id (by simpa [runW] using hid)]
        simp [DaprStorage.getRun, emptyStore]
      rw [hx] at h
      exact Option.noConfusion h
  have hmain := c5_createRun_spec storeW runW (by decide) hwf
  exact ⟨⟨by decide, hwf⟩, hmain.1, hmain.2.1⟩

/-! ## Claim C4: `listRuns` pagination versus filtering

The source scans `allRunIds.slice(cursor)` — the whole tail of the index —
and stops only once `limit` *matching* runs are collected, so a page can
return matching runs from index positions at or beyond `cursor + limit`.
`hasMore`, in contrast, is computed on the unfiltered index. -/

def runW2 : Run := { runW with id := "r2", status := .running }

def storeC4 : Store :=
  DaprStorage.createRun (DaprStorage.createRun emptyStore runW) runW2

def optionsC4 : ListRunsOptions := { status := some .running, limit := some 1 }

/-- C4 counterexample: with runs `r1` (pending), `r2` (running) in index
order, a `status = running, limit = 1, cursor = 0` query returns `r2`, which
sits at index position `1 = cursor + limit` — refuting the claim that
matching runs are never drawn from positions beyond the current page
slice. -/
theorem c4_listRuns_counterexample :
    (DaprStorage.listRuns storeC4 optionsC4).items.map Run.id = ["r2"] ∧
    (DaprStorage.getRunsIndex storeC4).indexOf "r2" = 1 ∧
    ¬ (∀ r ∈ (DaprStorage.listRuns storeC4 optionsC4).items,
        (DaprStorage.getRunsIndex storeC4).indexOf r.id <
          optionsC4.cursor.getD 0 + optionsC4.limit.getD 100) := by
  refine ⟨by decide, by decide, by decide⟩

/-- C4 (amended).  The workflowId/status filters are applied to the whole
index tail starting at the cursor offset — the scan keeps going past
`cursor + limit` until it has collected `limit` *matching* runs (or the
index is exhausted) — while `hasMore` is still computed as
`cursor + limit < length of the unfiltered runs index`. -/
theorem c4_listRuns_amended (s : Store) (options : ListRunsOptions) :
    (DaprStorage.listRuns s options).items =
      (matchingRuns s options
        ((DaprStorage.getRunsIndex s).drop (options.cursor.getD 0))).take
          (options.limit.getD 100) ∧
    (DaprStorage.listRuns s options).nextCursor =
      (if options.cursor.getD 0 + options.limit.getD 100 <
          (DaprStorage.getRunsIndex s).length then
        some (options.cursor.getD 0 + options.limit.getD 100)
      else none) ∧
    (DaprStorage.listRuns s options).totalCount =
      some (DaprStorage.getRunsIndex s).length := by
  simp [DaprStorage.listRuns, listRunsLoop_eq]

/-! ## Claims C2 and C9: step cache-key maintenance -/

/-- Model of `createStep` on a step with a truthy cache key, written out as iterated
single-key updates. -/
theorem createStep_eq_cached (s : Store) (step : Step) (K : String)
    (hK : step.cacheKey = some K) (hKne : K ≠ "") :
    DaprStorage.createStep s step =
      ((if step.id ∈ DaprStorage.getStepsIndex s step.runId then
          s.set (stepKey step.runId step.id) (.vStep step)
        else
          (s.set (stepKey step.runId step.id) (.vStep step)).set
            (stepsIndexKey step.runId)
            (.vIndex (DaprStorage.getStepsIndex s step.runId ++ [step.id]))).set
        (cacheMapKey K) (.vCache ⟨step.runId, step.id⟩)) := by
  by_cases hmem : step.id ∈ DaprStorage.getStepsIndex s step.runId <;>
    simp [DaprStorage.createStep, executeTransaction, Store.saveAll, hmem, hK,
      hKne]

theorem createStep_getStep_self (s : Store) (step : Step) (K : String)
    (hK : step.cacheKey = some K) (hKne : K ≠ "") :
    DaprStorage.getStep (DaprStorage.createStep s step) step.runId step.id =
      some step := by
  rw [createStep_eq_cached s step K hK hKne]
  by_cases hmem : step.id ∈ DaprStorage.getStepsIndex s step.runId <;>
    simp [DaprStorage.getStep, Store.set, hmem, stepKey, stepsIndexKey,
      cacheMapKey]

theorem createStep_cacheLookup (s : Store) (step : Step) (K : String)
    (hK : step.cacheKey = some K) (hKne : K ≠ "") :
    DaprStorage.getStepByCacheKey (DaprStorage.createStep s step) K =
      some step := by
  have hmap :
      DaprStorage.createStep s step (cacheMapKey K) =
        some (.vCache ⟨step.runId, step.id⟩) := by
    rw [createStep_eq_cached s step K hK hKne]
    simp [Store.set]
  simp [DaprStorage.getStepByCacheKey, hmap,
    createStep_getStep_self s step K hK hKne]

/-- Model of `updateStep` when the guard fires and the previous cache key was truthy:
the merged step and the new mapping are saved, then the old mapping is
deleted. -/
theorem updateStep_eq_changed (s : Store) (runId stepId : String)
    (updates : StepUpdates) (now : Nat) (existing : Step) (oldK newK : String)
    (hex : DaprStorage.getStep s runId stepId = some existing)
    (hold : existing.cacheKey = some oldK) (holdne : oldK ≠ "")
    (hch : cacheKeyChanged existing updates = some newK) :
    DaprStorage.updateStep s runId stepId updates now =
      .ok (((s.set (stepKey runId stepId)
          (.vStep { applyStepUpdates existing updates with updatedAt := now })).set
          (cacheMapKey newK) (.vCache ⟨runId, stepId⟩)).del (cacheMapKey oldK)) := by
  simp [DaprStorage.updateStep, hex, hch, hold, holdne, executeTransaction,
    Store.saveAll]

/-- Model of `updateStep` when the guard does not fire: only the step record is
written. -/
theorem updateStep_eq_unchanged (s : Store) (runId stepId : String)
    (updates : StepUpdates) (now : Nat) (existing : Step)
    (hex : DaprStorage.getStep s runId stepId = some existing)
    (hch : cacheKeyChanged existing updates = none) :
    DaprStorage.updateStep s runId stepId updates now =
      .ok (s.set (stepKey runId stepId)
        (.vStep { applyStepUpdates existing updates with updatedAt := now })) := by
  simp [DaprStorage.updateStep, hex, hch, executeTransaction, Store.saveAll]

/-- C2.  Creating a step with truthy `cacheKey = K` makes
`getStepByCacheKey K` return that step; updating the step to a different
truthy `cacheKey = K2` deletes the stale mapping for `K` (lookup now misses)
and repoints `K2` at the updated step. -/
theorem c2_cacheKey_spec (s : Store) (step : Step) (updates : StepUpdates)
    (now : Nat) (K K2 : String)
    (hK : step.cacheKey = some K) (hKne : K ≠ "") (hK2ne : K2 ≠ "")
    (hne : K ≠ K2) (hupd : updates.cacheKey = some (some K2)) :
    DaprStorage.getStepByCacheKey (DaprStorage.createStep s step) K =
      some step ∧
    (∃ s2, DaprStorage.updateStep (DaprStorage.createStep s step) step.runId
        step.id updates now = .ok s2 ∧
      DaprStorage.getStepByCacheKey s2 K = none ∧
      DaprStorage.getStepByCacheKey s2 K2 =
        some { applyStepUpdates step updates with updatedAt := now }) := by
  have hlookup := createStep_cacheLookup s step K hK hKne
  have hself := createStep_getStep_self s step K hK hKne
  have hch : cacheKeyChanged step updates = some K2 := by
    simp [cacheKeyChanged, hupd, hK2ne, hK, hne]
  have heq := updateStep_eq_changed (DaprStorage.createStep s step) step.runId
    step.id updates now step K K2 hself hK hKne hch
  refine ⟨hlookup, _, heq, ?_, ?_⟩
  · simp [DaprStorage.getStepByCacheKey, Store.del]
  · have hK2K : cacheMapKey K2 ≠ cacheMapKey K := by
      simp [cacheMapKey]
      exact fun h => hne h.symm
    have hstepK : stepKey step.runId step.id ≠ cacheMapKey K := by
      simp [stepKey, cacheMapKey]
    have hstepK2 : stepKey step.runId step.id ≠ cacheMapKey K2 := by
      simp [stepKey, cacheMapKey]
    simp [DaprStorage.getStepByCacheKey, Store.del, Store.set, hK2K,
      DaprStorage.getStep, hstepK, hstepK2]

/-- Concrete step fixture for the cache-key witnesses. -/
def stepW : Step :=
  { id := "s1", runId := "r1", stepName := "x", status := .pending,
    input := none, output := none, error := none, attempts := 0,
    createdAt := 1, updatedAt := 1, startedAt := none, completedAt := none,
    cacheKey := some "ck1" }

def stepUpdatesW : StepUpdates :=
  { status := some .completed, cacheKey := some (some "ck2") }

/-- Witness for C2 on a concrete store. -/
theorem c2_cacheKey_spec_witness :
    (stepW.cacheKey = some "ck1" ∧ "ck1" ≠ "" ∧ "ck2" ≠ "" ∧ "ck1" ≠ "ck2" ∧
      stepUpdatesW.cacheKey = some (some "ck2")) ∧
    (DaprStorage.getStepByCacheKey (DaprStorage.createStep emptyStore stepW)
        "ck1" = some stepW ∧
      ∃ s2, DaprStorage.updateStep (DaprStorage.createStep emptyStore stepW)
          stepW.runId stepW.id stepUpdatesW 7 = .ok s2 ∧
        DaprStorage.getStepByCacheKey s2 "ck1" = none ∧
        DaprStorage.getStepByCacheKey s2 "ck2" =
          some { applyStepUpdates stepW stepUpdatesW with updatedAt := 7 }) :=
  ⟨⟨by decide, by decide, by decide, by decide, by decide⟩,
   c2_cacheKey_spec emptyStore stepW stepUpdatesW 7 "ck1" "ck2" (by decide)
     (by decide) (by decide) (by decide) (by decide)⟩

/-- C9.  When an update omits `cacheKey`, sets it to `undefined` or the empty
string, or repeats the existing value, `updateStep` succeeds and leaves every
`workflow:cache:*` mapping byte-for-byte unchanged; in particular any mapping
that pointed at this step now points at the updated record. -/
theorem c9_updateStep_frame (s : Store) (runId stepId : String)
    (updates : StepUpdates) (now : Nat) (existing : Step)
    (hex : DaprStorage.getStep s runId stepId = some existing)
    (hch : updates.cacheKey = none ∨ updates.cacheKey = some none ∨
      updates.cacheKey = some (some "") ∨
      updates.cacheKey = some existing.cacheKey) :
    ∃ s', DaprStorage.updateStep s runId stepId updates now = .ok s' ∧
      (∀ k, s' (cacheMapKey k) = s (cacheMapKey k)) ∧
      (∀ K, s (cacheMapKey K) = some (.vCache ⟨runId, stepId⟩) →
        DaprStorage.getStepByCacheKey s' K =
          some { applyStepUpdates existing updates with updatedAt := now }) := by
  have hchanged : cacheKeyChanged existing updates = none := by
    rcases hch with h | h | h | h
    · simp [cacheKeyChanged, h]
    · simp [cacheKeyChanged, h]
    · simp [cacheKeyChanged, h]
    · cases hck : existing.cacheKey with
      | none => rw [hck] at h; simp [cacheKeyChanged, h]
      | some ck => rw [hck] at h; simp [cacheKeyChanged, h, hck]
  have heq := updateStep_eq_unchanged s runId stepId updates now existing hex
    hchanged
  refine ⟨_, heq, ?_, ?_⟩
  · intro k
    have : cacheMapKey k ≠ stepKey runId stepId := by simp [cacheMapKey, stepKey]
    simp [Store.set, this]
  · intro K hmap
    have hne : cacheMapKey K ≠ stepKey runId stepId := by
      simp [cacheMapKey, stepKey]
    simp [DaprStorage.getStepByCacheKey, Store.set, hne, hmap,
      DaprStorage.getStep]

/-- Witness for C9: an update that only changes the status leaves the cache
mapping for `ck1` pointing at the (updated) step. -/
theorem c9_updateStep_frame_witness :
    (DaprStorage.getStep (DaprStorage.createStep emptyStore stepW) "r1" "s1" =
        some stepW ∧
      (StepUpdates.cacheKey { status := some StepStatus.completed } = none ∨
        StepUpdates.cacheKey { status := some StepStatus.completed } = some none ∨
        StepUpdates.cacheKey { status := some StepStatus.completed } =
          some (some "") ∨
        StepUpdates.cacheKey { status := some StepStatus.completed } =
          some stepW.cacheKey)) ∧
    (∃ s', DaprStorage.updateStep (DaprStorage.createStep emptyStore stepW)
        "r1" "s1" { status := some StepStatus.completed } 9 = .ok s' ∧
      (∀ k, s' (cacheMapKey k) =
        DaprStorage.createStep emptyStore stepW (cacheMapKey k)) ∧
      (∀ K, DaprStorage.createStep emptyStore stepW (cacheMapKey K) =
          some (.vCache ⟨"r1", "s1"⟩) →
        DaprStorage.getStepByCacheKey s' K =
          some { applyStepUpdates stepW { status := some StepStatus.completed }
            with updatedAt := 9 })) :=
  ⟨⟨by decide, Or.inl (by decide)⟩,
   c9_updateStep_frame (DaprStorage.createStep emptyStore stepW) "r1" "s1"
     { status := some StepStatus.completed } 9 stepW (by decide)
     (Or.inl (by decide))⟩

/-! ## Claim C1: event sequencing -/

/-- The events produced by sequential `createEvent` calls starting from
counter value `c`: the `j`-th gets sequence `c + j`. -/
def mkEvents (r : String) : Nat → List EventInput → List WorkflowEvent
  | _, [] => []
  | c, e :: rest =>
    { id := mkEventId r (c + 1), runId := r, type := e.type, data := e.data,
      timestamp := e.timestamp, sequence := c + 1 } :: mkEvents r (c + 1) rest

theorem mkEventId_inj {r : String} {i j : Nat} (h : mkEventId r i = mkEventId r j) :
    i = j := by
  exact append_natLit_inj (p := r ++ "-evt-") h

theorem mkEvents_mem (r : String) :
    ∀ (l : List EventInput) (c : Nat) (ev : WorkflowEvent),
      ev ∈ mkEvents r c l →
      ev.id = mkEventId r ev.sequence ∧ c < ev.sequence ∧
        ev.sequence ≤ c + l.length := by
  intro l
  induction l with
  | nil => intro c ev h; simp [mkEvents] at h
  | cons e rest ih =>
    intro c ev h
    rw [mkEvents, List.mem_cons] at h
    rcases h with h | h
    · subst h
      refine ⟨rfl, ?_, ?_⟩
      · show c < c + 1
        omega
      · show c + 1 ≤ c + (e :: rest).length
        simp only [List.length_cons]
        omega
    · obtain ⟨h1, h2, h3⟩ := ih (c + 1) ev h
      refine ⟨h1, by omega, ?_⟩
      simp only [List.length_cons]
      omega

theorem mkEvents_sequences (r : String) :
    ∀ (l : List EventInput) (c : Nat),
      (mkEvents r c l).map (fun ev => ev.sequence) =
        List.range' (c + 1) l.length := by
  intro l
  induction l with
  | nil => intro c; simp [mkEvents]
  | cons e rest ih => intro c; simp [mkEvents, List.range', ih (c + 1)]

theorem mkEvents_pairwise (r : String) :
    ∀ (l : List EventInput) (c : Nat),
      (mkEvents r c l).Pairwise (fun a b => a.sequence < b.sequence) := by
  intro l
  induction l with
  | nil => intro c; simp [mkEvents]
  | cons e rest ih =>
    intro c
    rw [mkEvents]
    refine List.Pairwise.cons ?_ (ih (c + 1))
    intro b hb
    have := (mkEvents_mem r rest (c + 1) b hb).2.1
    simpa using this

/-- The head id is not among the tail ids (sequence numbers differ and the
decimal rendering is injective). -/
theorem mkEvents_head_notin (r : String) (l : List EventInput) (c : Nat) :
    mkEventId r (c + 1) ∉ (mkEvents r (c + 1) l).map (fun ev => ev.id) := by
  intro h
  obtain ⟨ev, hev, hid⟩ := List.mem_map.mp h
  obtain ⟨h1, h2, _⟩ := mkEvents_mem r l (c + 1) ev hev
  rw [h1] at hid
  have := mkEventId_inj hid
  omega

/-- Model of `createEvent`, written out as iterated single-key updates. -/
theorem createEvent_eq (s : Store) (e : EventInput) :
    DaprStorage.createEvent s e =
      (((s.set
          (eventKey e.runId (mkEventId e.runId (DaprStorage.readEventCounter s e.runId + 1)))
          (.vEvent { id := mkEventId e.runId (DaprStorage.readEventCounter s e.runId + 1),
                     runId := e.runId, type := e.type, data := e.data,
                     timestamp := e.timestamp,
                     sequence := DaprStorage.readEventCounter s e.runId + 1 })).set
          (eventCounterKey e.runId)
          (.vNat (DaprStorage.readEventCounter s e.runId + 1))).set
          (eventsIndexKey e.runId)
          (.vIndex (DaprStorage.getEventsIndex s e.runId ++
            [mkEventId e.runId (DaprStorage.readEventCounter s e.runId + 1)])),
       { id := mkEventId e.runId (DaprStorage.readEventCounter s e.runId + 1),
         runId := e.runId, type := e.type, data := e.data,
         timestamp := e.timestamp,
         sequence := DaprStorage.readEventCounter s e.runId + 1 }) := by
  simp [DaprStorage.createEvent, executeTransaction, Store.saveAll]

theorem createEvent_readCounter (s : Store) (e : EventInput) :
    DaprStorage.readEventCounter (DaprStorage.createEvent s e).1 e.runId =
      DaprStorage.readEventCounter s e.runId + 1 := by
  rw [createEvent_eq]
  simp [DaprStorage.readEventCounter, Store.set, eventCounterKey, eventsIndexKey]

theorem createEvent_index (s : Store) (e : EventInput) :
    DaprStorage.getEventsIndex (DaprStorage.createEvent s e).1 e.runId =
      DaprStorage.getEventsIndex s e.runId ++
        [mkEventId e.runId (DaprStorage.readEventCounter s e.runId + 1)] := by
  rw [createEvent_eq]
  simp [DaprStorage.getEventsIndex, Store.set, eventsIndexKey]

theorem createEvent_lookup (s : Store) (e : EventInput) (eid : String) :
    (DaprStorage.createEvent s e).1 (eventKey e.runId eid) =
      (if eid = mkEventId e.runId (DaprStorage.readEventCounter s e.runId + 1) then
        some (.vEvent (DaprStorage.createEvent s e).2)
      else s (eventKey e.runId eid)) := by
  rw [createEvent_eq]
  by_cases h : eid = mkEventId e.runId (DaprStorage.readEventCounter s e.runId + 1) <;>
    simp [Store.set, eventKey, eventCounterKey, eventsIndexKey, h]

/-- The main invariant of sequential event creation. -/
theorem createEvents_invariant (r : String) :
    ∀ (inputs : List EventInput) (s : Store),
      (∀ e ∈ inputs, e.runId = r) →
      (createEvents s inputs).2 =
        mkEvents r (DaprStorage.readEventCounter s r) inputs ∧
      DaprStorage.readEventCounter (createEvents s inputs).1 r =
        DaprStorage.readEventCounter s r + inputs.length ∧
      DaprStorage.getEventsIndex (createEvents s inputs).1 r =
        DaprStorage.getEventsIndex s r ++
          (mkEvents r (DaprStorage.readEventCounter s r) inputs).map
            (fun ev => ev.id) ∧
      (∀ ev ∈ mkEvents r (DaprStorage.readEventCounter s r) inputs,
        (createEvents s inputs).1 (eventKey r ev.id) = some (.vEvent ev)) ∧
      (∀ eid,
        eid ∉ (mkEvents r (DaprStorage.readEventCounter s r) inputs).map
          (fun ev => ev.id) →
        (createEvents s inputs).1 (eventKey r eid) = s (eventKey r eid)) := by
  intro inputs
  induction inputs with
  | nil =>
    intro s _
    refine ⟨rfl, by simp [createEvents, mkEvents], by simp [createEvents, mkEvents],
      ?_, ?_⟩
    · intro ev hev; simp [mkEvents] at hev
    · intro eid _; rfl
  | cons e rest ih =>
    intro s hrun
    have her : e.runId = r := hrun e (List.mem_cons_self e rest)
    have hrest : ∀ e' ∈ rest, e'.runId = r :=
      fun e' h => hrun e' (List.mem_cons_of_mem e h)
    set c := DaprStorage.readEventCounter s r with hc
    -- the event written by the head call
    have hev1 : (DaprStorage.createEvent s e).2 =
        { id := mkEventId r (c + 1), runId := r, type := e.type, data := e.data,
          timestamp := e.timestamp, sequence := c + 1 } := by
      rw [createEvent_eq]
      simp [her, hc]
    have hcounter1 :
        DaprStorage.readEventCounter (DaprStorage.createEvent s e).1 r = c + 1 := by
      have := createEvent_readCounter s e
      rwa [her] at this
    have hidx1 :
        DaprStorage.getEventsIndex (DaprStorage.createEvent s e).1 r =
          DaprStorage.getEventsIndex s r ++ [mkEventId r (c + 1)] := by
      have := createEvent_index s e
      rwa [her] at this
    have hlook1 : ∀ eid, (DaprStorage.createEvent s e).1 (eventKey r eid) =
        (if eid = mkEventId r (c + 1) then
          some (.vEvent (DaprStorage.createEvent s e).2)
        else s (eventKey r eid)) := by
      intro eid
      have := createEvent_lookup s e eid
      rwa [her] at this
    obtain ⟨ih1, ih2, ih3, ih4, ih5⟩ := ih (DaprStorage.createEvent s e).1 hrest
    rw [hcounter1] at ih1 ih2 ih3 ih4 ih5
    have hsplit : createEvents s (e :: rest) =
        ((createEvents (DaprStorage.createEvent s e).1 rest).1,
         (DaprStorage.createEvent s e).2 ::
           (createEvents (DaprStorage.createEvent s e).1 rest).2) := by
      simp [createEvents]
    rw [hsplit]
    have hmk : mkEvents r c (e :: rest) =
        { id := mkEventId r (c + 1), runId := r, type := e.type, data := e.data,
          timestamp := e.timestamp, sequence := c + 1 } ::
          mkEvents r (c + 1) rest := rfl
    refine ⟨?_, ?_, ?_, ?_, ?_⟩
    · rw [hmk, ih1, hev1]
    · rw [ih2]; simp; omega
    · rw [ih3, hidx1, hmk]
      simp [hev1]
    · intro ev hev
      rw [hmk, List.mem_cons] at hev
      rcases hev with hev | hev
      · have hnotin := mkEvents_head_notin r rest c
        have := ih5 (mkEventId r (c + 1)) hnotin
        rw [hev]
        simp only []
        rw [this, hlook1 (mkEventId r (c + 1)), if_pos rfl, hev1]
      · exact ih4 ev hev
    · intro eid hid
      rw [hmk] at hid
      simp only [List.map_cons, List.mem_cons, not_or] at hid
      obtain ⟨hid1, hid2⟩ := hid
      rw [ih5 eid hid2, hlook1 eid, if_neg hid1]

/-- Reading events back through the index: when the index is exactly the ids
of a list of stored events, `getEvents` returns that list (filtered by
`afterSequence` when supplied), provided it is already sorted. -/
theorem getEvents_of_index (s' : Store) (r : String) (aft : Option Nat)
    (evs : List WorkflowEvent)
    (hidx : DaprStorage.getEventsIndex s' r = evs.map (fun ev => ev.id))
    (hlook : ∀ ev ∈ evs, s' (eventKey r ev.id) = some (.vEvent ev))
    (hsorted : evs.Pairwise (fun a b => a.sequence ≤ b.sequence)) :
    DaprStorage.getEvents s' r aft =
      (match aft with
       | none => evs
       | some k => evs.filter (fun e => k < e.sequence)) := by
  have hfm : ∀ evs' : List WorkflowEvent,
      (∀ ev ∈ evs', s' (eventKey r ev.id) = some (.vEvent ev)) →
      ((evs'.map (fun ev => ev.id)).filterMap fun eventId =>
        match s' (eventKey r eventId) with
        | some (.vEvent e) =>
          match aft with
          | none => some e
          | some k => if k < e.sequence then some e else none
        | _ => none) =
      (match aft with
       | none => evs'
       | some k => evs'.filter (fun e => k < e.sequence)) := by
    intro evs'
    induction evs' with
    | nil => intro _; cases aft <;> simp
    | cons ev rest ihr =>
      intro hl
      have hev := hl ev (List.mem_cons_self ev rest)
      have hrest := fun ev' h => hl ev' (List.mem_cons_of_mem ev h)
      cases aft with
      | none => simp only [List.map_cons, List.filterMap_cons, hev, ihr hrest]
      | some k =>
        by_cases hk : k < ev.sequence
        · simp only [List.map_cons, List.filterMap_cons, hev, if_pos hk,
            ihr hrest, List.filter_cons, hk]
          simp [hk]
        · simp only [List.map_cons, List.filterMap_cons, hev, if_neg hk,
            ihr hrest, List.filter_cons]
          simp [hk]
  simp only [DaprStorage.getEvents]
  rw [hidx, hfm evs hlook]
  cases aft with
  | none => exact sortBySeq_of_sorted _ evs hsorted
  | some k =>
    refine sortBySeq_of_sorted _ _ ?_
    exact List.Pairwise.sublist (List.filter_sublist evs) hsorted

/-- C1.  Starting from a fresh run (zero event counter, empty events index),
`n` sequential `createEvent` calls produce events with sequences
`1, 2, …, n`; `getEvents` with no `afterSequence` returns exactly those
events sorted ascending by sequence (no gaps), and with `afterSequence = k`
returns exactly the created events with sequence `> k`, still ascending. -/
theorem c1_events_spec (s : Store) (r : String) (inputs : List EventInput)
    (hrun : ∀ e ∈ inputs, e.runId = r)
    (hcounter : DaprStorage.readEventCounter s r = 0)
    (hindex : DaprStorage.getEventsIndex s r = []) :
    (createEvents s inputs).2.map (fun ev => ev.sequence) =
      List.range' 1 inputs.length ∧
    DaprStorage.getEvents (createEvents s inputs).1 r none =
      (createEvents s inputs).2 ∧
    (∀ k, DaprStorage.getEvents (createEvents s inputs).1 r (some k) =
      (createEvents s inputs).2.filter (fun e => k < e.sequence)) := by
  obtain ⟨h1, _, h3, h4, _⟩ := createEvents_invariant r inputs s hrun
  rw [hcounter] at h1 h3 h4
  rw [hindex, List.nil_append] at h3
  have hsorted : (mkEvents r 0 inputs).Pairwise
      (fun a b => a.sequence ≤ b.sequence) :=
    (mkEvents_pairwise r inputs 0).imp (fun h => Nat.le_of_lt h)
  have hnone := getEvents_of_index (createEvents s inputs).1 r none
    (mkEvents r 0 inputs) h3 h4 hsorted
  have hsome := fun k => getEvents_of_index (createEvents s inputs).1 r (some k)
    (mkEvents r 0 inputs) h3 h4 hsorted
  refine ⟨?_, ?_, ?_⟩
  · rw [h1, mkEvents_sequences]
  · rw [h1]; exact hnone
  · intro k; rw [h1]; exact hsome k

/-- Event inputs for the C1 witness. -/
def eventInputsW : List EventInput :=
  [{ runId := "r1", type := "t1", data := ⟨"d1"⟩, timestamp := 3 },
   { runId := "r1", type := "t2", data := ⟨"d2"⟩, timestamp := 4 }]

/-- Witness for C1 on a concrete store. -/
theorem c1_events_spec_witness :
    ((∀ e ∈ eventInputsW, e.runId = "r1") ∧
      DaprStorage.readEventCounter storeW "r1" = 0 ∧
      DaprStorage.getEventsIndex storeW "r1" = []) ∧
    ((createEvents storeW eventInputsW).2.map (fun ev => ev.sequence) =
        List.range' 1 eventInputsW.length ∧
      DaprStorage.getEvents (createEvents storeW eventInputsW).1 "r1" none =
        (createEvents storeW eventInputsW).2 ∧
      DaprStorage.getEvents (createEvents storeW eventInputsW).1 "r1" (some 1) =
        (createEvents storeW eventInputsW).2.filter
          (fun e => 1 < e.sequence)) := by
  have h := c1_events_spec storeW "r1" eventInputsW (by decide) (by decide)
    (by decide)
  exact ⟨⟨by decide, by decide, by decide⟩, h.1, h.2.1, h.2.2 1⟩

/-! ## DaprQueue (`queue.ts`)

The queue's local bookkeeping (the `messageStore` map and per-subscription
`processing` sets) is in-memory state; the pub/sub bus is modelled by the
list of messages published during an operation.  `Date.now()` and the random
message id are passed explicitly.  The handler's outcome (returned or threw)
is the `handlerOk` parameter of `handleMessage`. -/

/-- Model of `QueueMessage` record. -/
structure QueueMessage where
  id : String
  queueName : String
  payload : JsonValue
  createdAt : Nat
  visibleAt : Nat
  attempts : Nat
  maxAttempts : Nat
  correlationId : Option String
deriving DecidableEq, Repr

/-- Model of `SendMessageOptions`. -/
structure SendMessageOptions where
  delayMs : Option Nat := none
  maxAttempts : Option Nat := none
  correlationId : Option String := none
deriving DecidableEq, Repr

/-- Model of `SubscribeOptions`. -/
structure SubscribeOptions where
  concurrency : Option Nat := none
  visibilityTimeout : Option Nat := none
  autoAck : Option Bool := none
deriving DecidableEq, Repr

/-- Model of `Required<SubscribeOptions>` after defaulting. -/
structure ResolvedSubscribeOptions where
  concurrency : Nat
  visibilityTimeout : Nat
  autoAck : Bool
deriving DecidableEq, Repr

def resolveSubscribeOptions (options : SubscribeOptions) :
    ResolvedSubscribeOptions :=
  { concurrency := options.concurrency.getD 1,
    visibilityTimeout := options.visibilityTimeout.getD 30000,
    autoAck := options.autoAck.getD true }

/-- A message published on the bus: either a plain queue message or a
dead-letter message carrying `sentToDlqAt` and `reason`. -/
inductive PublishedPayload
  | msg (m : QueueMessage)
  | dlqMsg (m : QueueMessage) (sentToDlqAt : Nat) (reason : String)
deriving DecidableEq, Repr

structure Published where
  topic : String
  payload : PublishedPayload
deriving DecidableEq, Repr

/-- Model of `buildTopic`: `${'{'}PubSubTopics.QUEUE_PREFIX{'}'}-${'{'}queueName{'}'}`. -/
def buildTopic (queueName : String) : String := "workflow-queue-" ++ queueName

/-- Model of `buildDlqTopic`: the queue topic plus the `-dlq` suffix. -/
def buildDlqTopic (queueName : String) : String :=
  "workflow-queue-" ++ queueName ++ "-dlq"

/-- Model of `InternalSubscription` (the handler itself lives outside the state). -/
structure InternalSubscription where
  queueName : String
  topic : String
  options : ResolvedSubscribeOptions
  active : Bool
  processing : List String
deriving DecidableEq, Repr

/-- The in-memory state of a `DaprQueue` instance. -/
structure QueueState where
  pubsubName : String
  subscriptions : List (String × InternalSubscription)
  messageStore : List (String × QueueMessage)
deriving DecidableEq, Repr

/-- Model of `Map.get`. -/
def assocGet {β : Type} : List (String × β) → String → Option β
  | [], _ => none
  | (k, v) :: rest, key => if k = key then some v else assocGet rest key

/-- Model of `Map.set` (replace or append). -/
def assocSet {β : Type} : List (String × β) → String → β → List (String × β)
  | [], key, v => [(key, v)]
  | (k, w) :: rest, key, v =>
    if k = key then (k, v) :: rest else (k, w) :: assocSet rest key v

/-- Model of `Map.delete`. -/
def assocDel {β : Type} : List (String × β) → String → List (String × β)
  | [], _ => []
  | (k, w) :: rest, key => if k = key then rest else (k, w) :: assocDel rest key

/-- Model of `Set.add`. -/
def setAdd (l : List String) (x : String) : List String :=
  if x ∈ l then l else l ++ [x]

/-- Model of `Set.delete`. -/
def setDel (l : List String) (x : String) : List String :=
  l.filter (fun y => y ≠ x)

/-- The key `${'{'}pubsubName{'}'}:${'{'}topic{'}'}` of the subscriptions map. -/
def subscriptionKey (st : QueueState) (topic : String) : String :=
  st.pubsubName ++ ":" ++ topic

/-- Model of `send`: build the message with `visibleAt = now + delayMs` and
`attempts = 0`, publish it to the queue topic, and track it in the local
message store. -/
def DaprQueue.send (st : QueueState) (queueName : String) (payload : JsonValue)
    (options : SendMessageOptions) (messageId : String) (now : Nat) :
    QueueState × List Published × String :=
  let message : QueueMessage :=
    { id := messageId, queueName := queueName, payload := payload,
      createdAt := now, visibleAt := now + options.delayMs.getD 0,
      attempts := 0, maxAttempts := options.maxAttempts.getD 3,
      correlationId := options.correlationId }
  ({ st with messageStore := assocSet st.messageStore messageId message },
   [⟨buildTopic queueName, .msg message⟩], messageId)

/-- Model of `subscribe`: register an active internal subscription with an empty
processing set under the `pubsubName:topic` key. -/
def DaprQueue.subscribe (st : QueueState) (queueName : String)
    (options : SubscribeOptions) : QueueState :=
  let topic := buildTopic queueName
  let internalSub : InternalSubscription :=
    { queueName := queueName, topic := topic,
      options := resolveSubscribeOptions options, active := true,
      processing := [] }
  { st with subscriptions :=
      assocSet st.subscriptions (subscriptionKey st topic) internalSub }

/-- Model of `ack`: drop the message from the local store and the subscription's
processing set (no publish). -/
def DaprQueue.ack (st : QueueState) (queueName : String) (messageId : String) :
    QueueState :=
  let st1 := { st with messageStore := assocDel st.messageStore messageId }
  let key := subscriptionKey st1 (buildTopic queueName)
  match assocGet st1.subscriptions key with
  | some sub =>
    { st1 with subscriptions :=
        (assocSet st1.subscriptions key
          { sub with processing := setDel sub.processing messageId }) }
  | none => st1

/-- Model of `nack`: on an untracked id, do nothing.  Otherwise drop the id from the
processing set, bump `attempts`, then either republish with the exponential
backoff delay (requeue while attempts remain) or publish once to the
dead-letter topic tagged with `sentToDlqAt` and a reason; finally forget the
message locally. -/
def DaprQueue.nack (st : QueueState) (queueName : String) (messageId : String)
    (requeue : Bool) (now : Nat) : QueueState × List Published :=
  match assocGet st.messageStore messageId with
  | none => (st, [])
  | some message =>
    let key := subscriptionKey st (buildTopic queueName)
    let st1 :=
      match assocGet st.subscriptions key with
      | some sub =>
        { st with subscriptions :=
            (assocSet st.subscriptions key
              { sub with processing := setDel sub.processing messageId }) }
      | none => st
    let message1 := { message with attempts := message.attempts + 1 }
    let result :=
      if requeue && decide (message1.attempts < message1.maxAttempts) then
        let backoffMs := min (1000 * 2 ^ message1.attempts) 30000
        (st1, [⟨buildTopic queueName,
          .msg { message1 with visibleAt := now + backoffMs }⟩])
      else
        (st1, [⟨buildDlqTopic queueName,
          .dlqMsg message1 now
            (if requeue then "max_attempts_exceeded" else "nack_no_requeue")⟩])
    ({ result.1 with messageStore := assocDel result.1.messageStore messageId },
     result.2)

/-- What `handleMessage` did with an inbound message. -/
inductive HandleOutcome
  | inactive
  | delayed (delayMs : Nat)
  | atCapacity
  | handled
deriving DecidableEq, Repr

/-- Model of `handleMessage`: ignore if the subscription is missing or inactive;
reschedule (capped at 60 s) while the message is not yet visible; drop
locally at the concurrency limit (the bus will redeliver); otherwise run the
handler — `ack` on success with `autoAck`, `nack(requeue = true)` on
throw. -/
def DaprQueue.handleMessage (st : QueueState) (key : String)
    (message : QueueMessage) (now : Nat) (handlerOk : Bool) :
    QueueState × List Published × HandleOutcome :=
  match assocGet st.subscriptions key with
  | none => (st, [], .inactive)
  | some sub =>
    if !sub.active then (st, [], .inactive)
    else if now < message.visibleAt then
      (st, [], .delayed (min (message.visibleAt - now) 60000))
    else if sub.options.concurrency ≤ sub.processing.length then
      (st, [], .atCapacity)
    else
      let sub1 := { sub with processing := setAdd sub.processing message.id }
      let st1 := { st with
        subscriptions := assocSet st.subscriptions key sub1,
        messageStore := assocSet st.messageStore message.id message }
      if handlerOk then
        if sub1.options.autoAck then
          (DaprQueue.ack st1 sub1.queueName message.id, [], .handled)
        else (st1, [], .handled)
      else
        let nacked := DaprQueue.nack st1 sub1.queueName message.id true now
        (nacked.1, nacked.2, .handled)

/-! ## Claims C3 and C10: `nack`, retry backoff and dead-lettering -/

/-- Queue scenario fixtures: one subscription on `q1`, one message with
`maxAttempts = 2`, a handler that always throws. -/
def queueStateW : QueueState :=
  DaprQueue.subscribe
    { pubsubName := "pubsub", subscriptions := [], messageStore := [] } "q1" {}

def sendW : QueueState × List Published × String :=
  DaprQueue.send queueStateW "q1" ⟨"v1"⟩ { maxAttempts := some 2 } "m1" 0

def msg0W : QueueMessage :=
  { id := "m1", queueName := "q1", payload := ⟨"v1"⟩, createdAt := 0,
    visibleAt := 0, attempts := 0, maxAttempts := 2, correlationId := none }

def keyW : String := "pubsub:workflow-queue-q1"

/-- First delivery: the handler throws. -/
def delivery1W : QueueState × List Published × HandleOutcome :=
  DaprQueue.handleMessage sendW.1 keyW msg0W 0 false

/-- The message as republished after the first failure. -/
def msg1W : QueueMessage := { msg0W with attempts := 1, visibleAt := 2000 }

/-- Second delivery (after the 2000 ms backoff): the handler throws again. -/
def delivery2W : QueueState × List Published × HandleOutcome :=
  DaprQueue.handleMessage delivery1W.1 keyW msg1W 2000 false

/-- Everything published on the bus across the scenario. -/
def tracePubsW : List Published := sendW.2.1 ++ delivery1W.2.1 ++ delivery2W.2.1

/-- C3.  `nack` on a tracked message increments its attempts; while requeueing
with attempts still below `maxAttempts` it republishes to the queue topic
with `visibleAt = now + min(1000·2^attempts, 30000)` (attempts already
incremented); otherwise it publishes exactly once to the `-dlq` topic tagged
with `sentToDlqAt` and reason `max_attempts_exceeded` (requeue requested) or
`nack_no_requeue` (requeue declined).  With `maxAttempts = 2` and a handler
that always throws, the second failure puts exactly one
`max_attempts_exceeded` message on the DLQ topic. -/
theorem c3_nack_spec :
    (∀ (st : QueueState) (q mid : String) (now : Nat) (m : QueueMessage),
      assocGet st.messageStore mid = some m →
      (m.attempts + 1 < m.maxAttempts →
        (DaprQueue.nack st q mid true now).2 =
          [⟨buildTopic q, .msg { m with attempts := m.attempts + 1, visibleAt := now + min (1000 * 2 ^ (m.attempts + 1)) 30000 }⟩]) ∧
      (¬ (m.attempts + 1 < m.maxAttempts) →
        (DaprQueue.nack st q mid true now).2 =
          [⟨buildDlqTopic q,
            .dlqMsg { m with attempts := m.attempts + 1 } now
              "max_attempts_exceeded"⟩]) ∧
      (DaprQueue.nack st q mid false now).2 =
        [⟨buildDlqTopic q,
          .dlqMsg { m with attempts := m.attempts + 1 } now
            "nack_no_requeue"⟩]) ∧
    (∀ q, buildDlqTopic q = buildTopic q ++ "-dlq") ∧
    (delivery1W.2.1 = [⟨buildTopic "q1", .msg msg1W⟩] ∧
      delivery2W.2.1 =
        [⟨buildDlqTopic "q1",
          .dlqMsg { msg1W with attempts := 2 } 2000 "max_attempts_exceeded"⟩] ∧
      (tracePubsW.filter (fun p => p.topic = buildDlqTopic "q1")).length = 1) := by
  refine ⟨?_, fun q => rfl, by decide, by decide, by decide⟩
  intro st q mid now m h
  refine ⟨?_, ?_, ?_⟩
  · intro hlt
    simp [DaprQueue.nack, h, hlt]
  · intro hge
    simp [DaprQueue.nack, h, hge]
  · simp [DaprQueue.nack, h]

/-- Witness for C3: the first failure's requeue publish, at concrete inputs. -/
theorem c3_nack_spec_witness :
    (assocGet sendW.1.messageStore "m1" = some msg0W ∧
      msg0W.attempts + 1 < msg0W.maxAttempts) ∧
    (DaprQueue.nack sendW.1 "q1" "m1" true 0).2 =
      [⟨buildTopic "q1", .msg msg1W⟩] := by
  refine ⟨⟨by decide, by decide⟩, ?_⟩
  have h := (c3_nack_spec.1 sendW.1 "q1" "m1" 0 msg0W (by decide)).1 (by decide)
  rw [h]
  decide

/-- C10.  `nack` for a message id absent from the local message table is a
complete no-op: nothing is published and the queue state (message table and
processing sets) is returned unchanged. -/
theorem c10_nack_untracked_noop (st : QueueState) (queueName messageId : String)
    (requeue : Bool) (now : Nat)
    (h : assocGet st.messageStore messageId = none) :
    DaprQueue.nack st queueName messageId requeue now = (st, []) := by
  simp [DaprQueue.nack, h]

/-- Witness for C10 at a concrete queue state. -/
theorem c10_nack_untracked_noop_witness :
    assocGet sendW.1.messageStore "zz" = none ∧
    DaprQueue.nack sendW.1 "q" "zz" true 5 = (sendW.1, []) :=
  ⟨by decide, c10_nack_untracked_noop sendW.1 "q" "zz" true 5 (by decide)⟩

/-! ## DaprStreamer and DaprWritableStream (`streamer.ts`, first half)

Durable chunks and stream metadata live in the same state store; live
delivery is modelled by the list of messages published on the stream topic.
Each handle keeps its own in-memory sequence counter (the documented
single-writer constraint). -/

/-- A message published on a stream topic: a chunk, or the `stream_closed`
sentinel. -/
inductive StreamMsg
  | chunkMsg (c : StreamChunk)
  | closedMsg (streamId : String) (timestamp : Nat)
deriving DecidableEq, Repr

structure SPublished where
  topic : String
  msg : StreamMsg
deriving DecidableEq, Repr

/-- Model of `buildStreamTopic`. -/
def buildStreamTopic (streamId : String) : String :=
  "workflow-stream-" ++ streamId

/-- The in-memory state of a `DaprWritableStream` handle (`open` and
`sequence` fields; `open` is renamed `openFlag` as it is a Lean keyword). -/
structure WStream where
  id : String
  openFlag : Bool
  sequence : Nat
deriving DecidableEq, Repr

/-- Model of `getStreamMetadata`. -/
def DaprStreamer.getStreamMetadata (s : Store) (streamId : String) :
    Option StreamMetadata :=
  match s (streamKey streamId) with
  | some (.vMeta m) => some m
  | _ => none

/-- Model of `createStream`: refuse if the stream exists and is open; otherwise write
fresh metadata (`isOpen = true, chunkCount = 0`) and a zero counter and
return an open handle seeded at sequence 0. -/
def DaprStreamer.createStream (s : Store) (streamId : String)
    (optionsMetadata : Option JsonValue) (now : Nat) :
    Except String (WStream × Store) :=
  if (match DaprStreamer.getStreamMetadata s streamId with
      | some existing => existing.isOpen
      | none => false) then
    .error ("Stream " ++ streamId ++ " already exists and is open")
  else
    let metadata : StreamMetadata :=
      { id := streamId, isOpen := true, createdAt := now, closedAt := none,
        chunkCount := 0, metadata := optionsMetadata }
    .ok ({ id := streamId, openFlag := true, sequence := 0 },
      s.saveAll [(streamKey streamId, .vMeta metadata),
        (streamCounterKey streamId, .vNat 0)])

/-- Handle `write`: refuse when closed; allocate the next sequence, persist
the chunk and counter, bump the metadata's `chunkCount` (when metadata
exists), and publish the chunk for live subscribers. -/
def DaprWritableStream.write (w : WStream) (s : Store) (data : JsonValue)
    (now : Nat) : Except String (WStream × Store × List SPublished) :=
  if !w.openFlag then .error ("Stream " ++ w.id ++ " is closed")
  else
    let sequence := w.sequence + 1
    let chunk : StreamChunk :=
      { id := w.id ++ "-chunk-" ++ natLit sequence, streamId := w.id,
        data := data, sequence := sequence, timestamp := now }
    let s1 := s.saveAll [(chunkKey w.id sequence, .vChunk chunk),
      (streamCounterKey w.id, .vNat sequence)]
    let s2 :=
      match DaprStreamer.getStreamMetadata s1 w.id with
      | some metadata =>
        s1.saveAll [(streamKey w.id, .vMeta { metadata with chunkCount := sequence })]
      | none => s1
    .ok ({ w with sequence := sequence }, s2,
      [⟨buildStreamTopic w.id, .chunkMsg chunk⟩])

/-- Handle `close`: idempotent; mark the metadata closed and publish the
`stream_closed` sentinel. -/
def DaprWritableStream.close (w : WStream) (s : Store) (now : Nat) :
    WStream × Store × List SPublished :=
  if !w.openFlag then (w, s, [])
  else
    let s1 :=
      match DaprStreamer.getStreamMetadata s w.id with
      | some metadata =>
        s.saveAll [(streamKey w.id,
          .vMeta { metadata with isOpen := false, closedAt := some now })]
      | none => s
    ({ w with openFlag := false }, s1,
      [⟨buildStreamTopic w.id, .closedMsg w.id now⟩])

/-- Model of `getChunks`: nothing for an unknown stream; otherwise fetch the chunks
stored under sequences `fromSequence + 1 … chunkCount` and sort them by
sequence. -/
def DaprStreamer.getChunks (s : Store) (streamId : String)
    (fromSequence : Option Nat) : List StreamChunk :=
  match DaprStreamer.getStreamMetadata s streamId with
  | none => []
  | some metadata =>
    let startSequence := fromSequence.getD 0 + 1
    let chunks :=
      (List.range' startSequence (metadata.chunkCount + 1 - startSequence)).filterMap
        fun seq =>
          match s (chunkKey streamId seq) with
          | some (.vChunk c) => some c
          | _ => none
    sortBySeq StreamChunk.sequence chunks

/-- Sequential writes through a handle, collecting the publishes. -/
def writeSeq (w : WStream) (s : Store) :
    List (JsonValue × Nat) → Except String (WStream × Store × List SPublished)
  | [] => .ok (w, s, [])
  | (d, t) :: rest =>
    match DaprWritableStream.write w s d t with
    | .error e => .error e
    | .ok (w1, s1, p1) =>
      match writeSeq w1 s1 rest with
      | .error e => .error e
      | .ok (w2, s2, p2) => .ok (w2, s2, p1 ++ p2)

/-- The chunk produced by the `(i)`-th write of a stream. -/
def mkChunk (streamId : String) (i : Nat) (dt : JsonValue × Nat) : StreamChunk :=
  { id := streamId ++ "-chunk-" ++ natLit i, streamId := streamId,
    data := dt.1, sequence := i, timestamp := dt.2 }

/-- The chunks produced by sequential writes starting after sequence `c`. -/
def expectedChunksFrom (streamId : String) :
    Nat → List (JsonValue × Nat) → List StreamChunk
  | _, [] => []
  | c, dt :: rest =>
    mkChunk streamId (c + 1) dt :: expectedChunksFrom streamId (c + 1) rest

/-- The per-subscription state of the streamer (`lastSequence` watermark and
`active` flag; the handler itself lives outside the state). -/
structure SubState where
  lastSequence : Nat
  active : Bool
deriving DecidableEq, Repr

/-- One live delivery to a single subscription (`handleStreamMessage`):
`stream_closed` sentinels are dropped without a handler callback; a chunk is
delivered only when its sequence exceeds the watermark; the watermark
advances only when the handler returns normally (`handlerOk`).  The second
component is the chunk passed to the handler, if any. -/
def liveDeliver (sub : SubState) (msg : StreamMsg) (handlerOk : Bool) :
    SubState × Option StreamChunk :=
  match msg with
  | .closedMsg _ _ => (sub, none)
  | .chunkMsg c =>
    if !sub.active then (sub, none)
    else if sub.lastSequence < c.sequence then
      (if handlerOk then { sub with lastSequence := c.sequence } else sub, some c)
    else (sub, none)

/-- A whole live phase: fold `liveDeliver` over the inbound messages,
collecting every chunk that reached the handler. -/
def liveRun (sub : SubState) :
    List (StreamMsg × Bool) → SubState × List StreamChunk
  | [] => (sub, [])
  | (m, ok) :: rest =>
    let d := liveDeliver sub m ok
    let r := liveRun d.1 rest
    (r.1, d.2.toList ++ r.2)

/-- The replay phase of `subscribe` for one subscription: start the watermark
at `fromSequence ?? 0`; unless `liveOnly` (or the stream is unknown), deliver
every chunk of `getChunks(streamId, fromSequence)` in order, advancing the
watermark.  Returns the subscription state and the replayed chunks. -/
def subscribeReplay (s : Store) (streamId : String) (fromSequence : Option Nat)
    (liveOnly : Bool) : SubState × List StreamChunk :=
  let sub : SubState := { lastSequence := fromSequence.getD 0, active := true }
  if !liveOnly && (DaprStreamer.getStreamMetadata s streamId).isSome then
    let chunks := DaprStreamer.getChunks s streamId fromSequence
    (chunks.foldl (fun st c => { st with lastSequence := c.sequence }) sub, chunks)
  else (sub, [])

/-! ## Claim C7: durable chunks and `getChunks` -/

theorem chunkKey_inj_seq {sid : String} {i j : Nat}
    (h : chunkKey sid i = chunkKey sid j) : i = j := by
  simp only [chunkKey, List.cons.injEq, and_true] at h
  exact natLit_injective h.2.2

/-- Model of `write` on an open handle over a store holding metadata, written out as
iterated single-key updates. -/
theorem write_ok (w : WStream) (s : Store) (data : JsonValue) (now : Nat)
    (meta : StreamMetadata) (hopen : w.openFlag = true)
    (hmeta : DaprStreamer.getStreamMetadata s w.id = some meta) :
    DaprWritableStream.write w s data now =
      .ok ({ w with sequence := w.sequence + 1 },
        ((s.set (chunkKey w.id (w.sequence + 1))
            (.vChunk (mkChunk w.id (w.sequence + 1) (data, now)))).set
          (streamCounterKey w.id) (.vNat (w.sequence + 1))).set
          (streamKey w.id) (.vMeta { meta with chunkCount := w.sequence + 1 }),
        [⟨buildStreamTopic w.id,
          .chunkMsg (mkChunk w.id (w.sequence + 1) (data, now))⟩]) := by
  have hmeta1 : DaprStreamer.getStreamMetadata
      ((s.set (chunkKey w.id (w.sequence + 1))
        (.vChunk (mkChunk w.id (w.sequence + 1) (data, now)))).set
        (streamCounterKey w.id) (.vNat (w.sequence + 1))) w.id = some meta := by
    unfold DaprStreamer.getStreamMetadata at hmeta ⊢
    rw [Store.set_other _ _ _ _ (by simp [streamKey, streamCounterKey]),
      Store.set_other _ _ _ _ (by simp [streamKey, chunkKey])]
    exact hmeta
  unfold DaprWritableStream.write
  rw [hopen]
  simp only [Bool.not_true, Bool.false_eq_true, if_false, Store.saveAll,
    List.foldl_cons, List.foldl_nil, mkChunk]
  simp only [mkChunk] at hmeta1
  rw [hmeta1]

theorem expectedChunksFrom_mem (sid : String) :
    ∀ (ds : List (JsonValue × Nat)) (c : Nat) (ch : StreamChunk),
      ch ∈ expectedChunksFrom sid c ds →
      c < ch.sequence ∧ ch.sequence ≤ c + ds.length := by
  intro ds
  induction ds with
  | nil => intro c ch h; simp [expectedChunksFrom] at h
  | cons dt rest ih =>
    intro c ch h
    rw [expectedChunksFrom, List.mem_cons] at h
    rcases h with h | h
    · subst h
      refine ⟨?_, ?_⟩
      · show c < c + 1; omega
      · show c + 1 ≤ c + (dt :: rest).length
        simp only [List.length_cons]; omega
    · obtain ⟨h1, h2⟩ := ih (c + 1) ch h
      refine ⟨by omega, ?_⟩
      simp only [List.length_cons]; omega

theorem expectedChunksFrom_pairwise (sid : String) :
    ∀ (ds : List (JsonValue × Nat)) (c : Nat),
      (expectedChunksFrom sid c ds).Pairwise
        (fun a b => a.sequence < b.sequence) := by
  intro ds
  induction ds with
  | nil => intro c; simp [expectedChunksFrom]
  | cons dt rest ih =>
    intro c
    rw [expectedChunksFrom]
    refine List.Pairwise.cons ?_ (ih (c + 1))
    intro b hb
    have := (expectedChunksFrom_mem sid rest (c + 1) b hb).1
    simpa [mkChunk] using this

theorem expectedChunksFrom_sequences (sid : String) :
    ∀ (ds : List (JsonValue × Nat)) (c : Nat),
      (expectedChunksFrom sid c ds).map (fun ch => ch.sequence) =
        List.range' (c + 1) ds.length := by
  intro ds
  induction ds with
  | nil => intro c; simp [expectedChunksFrom]
  | cons dt rest ih =>
    intro c
    simp [expectedChunksFrom, mkChunk, List.range', ih (c + 1)]

theorem expectedChunksFrom_drop (sid : String) :
    ∀ (k : Nat) (ds : List (JsonValue × Nat)) (c : Nat),
      expectedChunksFrom sid (c + k) (ds.drop k) =
        (expectedChunksFrom sid c ds).drop k := by
  intro k
  induction k with
  | zero => intro ds c; simp
  | succ k ih =>
    intro ds c
    cases ds with
    | nil => simp [expectedChunksFrom]
    | cons dt rest =>
      rw [List.drop_succ_cons, expectedChunksFrom, List.drop_succ_cons]
      have : c + (k + 1) = (c + 1) + k := by omega
      rw [this, ih rest (c + 1)]

/-- Invariant of sequential writes: starting from an open handle whose
in-memory counter agrees with the stored metadata's `chunkCount`, `n` writes
succeed, produce chunks with sequences `w.sequence + 1 … w.sequence + n`
stored under their own keys, bump `chunkCount` accordingly, publish each
chunk once in order, and touch no other chunk key. -/
theorem writeSeq_invariant (sid : String) :
    ∀ (datas : List (JsonValue × Nat)) (w : WStream) (s : Store)
      (meta : StreamMetadata),
      w.id = sid → w.openFlag = true →
      DaprStreamer.getStreamMetadata s sid = some meta →
      meta.chunkCount = w.sequence →
      ∃ w' s' pubs, writeSeq w s datas = .ok (w', s', pubs) ∧
        w'.id = sid ∧ w'.openFlag = true ∧
        w'.sequence = w.sequence + datas.length ∧
        DaprStreamer.getStreamMetadata s' sid =
          some { meta with chunkCount := w.sequence + datas.length } ∧
        (∀ ch ∈ expectedChunksFrom sid w.sequence datas,
          s' (chunkKey sid ch.sequence) = some (.vChunk ch)) ∧
        (∀ i, (i ≤ w.sequence ∨ w.sequence + datas.length < i) →
          s' (chunkKey sid i) = s (chunkKey sid i)) ∧
        pubs = (expectedChunksFrom sid w.sequence datas).map
          (fun ch => (⟨buildStreamTopic sid, .chunkMsg ch⟩ : SPublished)) := by
  intro datas
  induction datas with
  | nil =>
    intro w s meta hid hopen hmeta hcc
    refine ⟨w, s, [], rfl, hid, hopen, by simp, ?_, ?_, ?_, ?_⟩
    · have hm : ({ meta with
          chunkCount := w.sequence + ([] : List (JsonValue × Nat)).length }
          : StreamMetadata) = meta := by
        have hz : w.sequence + ([] : List (JsonValue × Nat)).length =
            meta.chunkCount := by simp [hcc]
        rw [hz]
      rw [hm, hmeta]
    · intro ch hch; simp [expectedChunksFrom] at hch
    · intro i _; rfl
    · simp [expectedChunksFrom]
  | cons dt rest ih =>
    intro w s meta hid hopen hmeta hcc
    obtain ⟨d, t⟩ := dt
    have hmeta' : DaprStreamer.getStreamMetadata s w.id = some meta := by
      rw [hid]; exact hmeta
    have hw := write_ok w s d t meta hopen hmeta'
    -- the store after the head write
    set s1 : Store := ((s.set (chunkKey w.id (w.sequence + 1))
        (.vChunk (mkChunk w.id (w.sequence + 1) (d, t)))).set
        (streamCounterKey w.id) (.vNat (w.sequence + 1))).set
        (streamKey w.id) (.vMeta { meta with chunkCount := w.sequence + 1 })
      with hs1
    have hmeta1 : DaprStreamer.getStreamMetadata s1 sid =
        some { meta with chunkCount := w.sequence + 1 } := by
      rw [hs1, ← hid]
      simp [DaprStreamer.getStreamMetadata, Store.set]
    have hlook1 : ∀ j, s1 (chunkKey sid j) =
        (if j = w.sequence + 1 then
          some (.vChunk (mkChunk sid (w.sequence + 1) (d, t)))
        else s (chunkKey sid j)) := by
      intro j
      rw [hs1, ← hid]
      have hk1 : chunkKey w.id j ≠ streamKey w.id := by
        simp [chunkKey, streamKey]
      have hk2 : chunkKey w.id j ≠ streamCounterKey w.id := by
        simp [chunkKey, streamCounterKey]
      rw [Store.set_other _ _ _ _ hk1, Store.set_other _ _ _ _ hk2]
      by_cases hj : j = w.sequence + 1
      · subst hj
        rw [Store.set_same, if_pos rfl]
      · have hck : chunkKey w.id j ≠ chunkKey w.id (w.sequence + 1) :=
          fun h => hj (chunkKey_inj_seq h)
        rw [Store.set_other _ _ _ _ hck, if_neg hj]
    have hrec := ih { w with sequence := w.sequence + 1 } s1
      { meta with chunkCount := w.sequence + 1 } hid hopen hmeta1 rfl
    dsimp only at hrec
    obtain ⟨w2, s2, pubs2, hws, hid2, hopen2, hseq2, hmeta2, hchunks2, hframe2,
      hpubs2⟩ := hrec
    refine ⟨w2, s2,
      [⟨buildStreamTopic w.id,
        .chunkMsg (mkChunk w.id (w.sequence + 1) (d, t))⟩] ++ pubs2,
      ?_, hid2, hopen2, ?_, ?_, ?_, ?_, ?_⟩
    · simp only [writeSeq, hw, hws]
    · rw [hseq2]
      simp only [List.length_cons]
      omega
    · rw [hmeta2]
      have harith : w.sequence + 1 + rest.length =
          w.sequence + ((d, t) :: rest).length := by
        simp only [List.length_cons]; omega
      rw [← harith]
    · intro ch hch
      rw [expectedChunksFrom, List.mem_cons] at hch
      rcases hch with hch | hch
      · subst hch
        have hs2s1 : s2 (chunkKey sid (mkChunk sid (w.sequence + 1) (d, t)).sequence) =
            s1 (chunkKey sid (mkChunk sid (w.sequence + 1) (d, t)).sequence) := by
          apply hframe2
          left
          show (mkChunk sid (w.sequence + 1) (d, t)).sequence ≤ w.sequence + 1
          simp [mkChunk]
        rw [hs2s1, hlook1]
        simp [mkChunk, hid]
      · exact hchunks2 ch hch
    · intro i hi
      have h1 : s2 (chunkKey sid i) = s1 (chunkKey sid i) := by
        apply hframe2
        rcases hi with hi | hi
        · left; omega
        · right
          simp only [List.length_cons] at hi
          omega
      have h2 : i ≠ w.sequence + 1 := by
        rcases hi with hi | hi
        · omega
        · simp only [List.length_cons] at hi
          omega
      rw [h1, hlook1, if_neg h2]
    · rw [hpubs2, expectedChunksFrom]
      simp [hid]

theorem createStream_ok (s : Store) (streamId : String)
    (optionsMetadata : Option JsonValue) (now : Nat)
    (hfresh : DaprStreamer.getStreamMetadata s streamId = none) :
    DaprStreamer.createStream s streamId optionsMetadata now =
      .ok ({ id := streamId, openFlag := true, sequence := 0 },
        (s.set (streamKey streamId) (.vMeta
          { id := streamId, isOpen := true, createdAt := now,
            closedAt := none, chunkCount := 0, metadata := optionsMetadata })).set
          (streamCounterKey streamId) (.vNat 0)) := by
  simp [DaprStreamer.createStream, hfresh, Store.saveAll]

theorem createStream_metadata (s : Store) (streamId : String)
    (m : StreamMetadata) :
    DaprStreamer.getStreamMetadata
      ((s.set (streamKey streamId) (.vMeta m)).set
        (streamCounterKey streamId) (.vNat 0)) streamId = some m := by
  have h : streamKey streamId ≠ streamCounterKey streamId := by
    simp [streamKey, streamCounterKey]
  unfold DaprStreamer.getStreamMetadata
  rw [Store.set_other _ _ _ _ h, Store.set_same]

/-- When every expected chunk is stored under its own key, the `getChunks`
scan over `start + 1 … start + n` collects exactly the expected chunks. -/
theorem range_filterMap_chunks (s' : Store) (sid : String) :
    ∀ (ds : List (JsonValue × Nat)) (start : Nat),
      (∀ ch ∈ expectedChunksFrom sid start ds,
        s' (chunkKey sid ch.sequence) = some (.vChunk ch)) →
      ((List.range' (start + 1) ds.length).filterMap fun seq =>
        match s' (chunkKey sid seq) with
        | some (.vChunk c) => some c
        | _ => none) = expectedChunksFrom sid start ds := by
  intro ds
  induction ds with
  | nil => intro start _; simp [expectedChunksFrom]
  | cons dt rest ih =>
    intro start h
    have hhead := h (mkChunk sid (start + 1) dt)
      (by rw [expectedChunksFrom]; exact List.mem_cons_self _ _)
    have hseq : (mkChunk sid (start + 1) dt).sequence = start + 1 := rfl
    rw [hseq] at hhead
    rw [List.length_cons, List.range'_succ]
    simp only [List.filterMap_cons, hhead]
    rw [expectedChunksFrom]
    congr 1
    exact ih (start + 1) fun ch hch =>
      h ch (by rw [expectedChunksFrom]; exact List.mem_cons_of_mem _ hch)

/-- Model of `getChunks` after `n` writes: the chunks with sequences `k + 1 … n`. -/
theorem getChunks_writeSeq (s2 : Store) (sid : String)
    (datas : List (JsonValue × Nat)) (meta : StreamMetadata) (k : Nat)
    (hmeta : DaprStreamer.getStreamMetadata s2 sid = some meta)
    (hcc : meta.chunkCount = datas.length)
    (hlook : ∀ ch ∈ expectedChunksFrom sid 0 datas,
      s2 (chunkKey sid ch.sequence) = some (.vChunk ch)) :
    DaprStreamer.getChunks s2 sid (some k) =
      (expectedChunksFrom sid 0 datas).drop k := by
  have hdrop : expectedChunksFrom sid k (datas.drop k) =
      (expectedChunksFrom sid 0 datas).drop k := by
    have h := expectedChunksFrom_drop sid k datas 0
    simpa using h
  have hlook' : ∀ ch ∈ expectedChunksFrom sid k (datas.drop k),
      s2 (chunkKey sid ch.sequence) = some (.vChunk ch) := by
    intro ch hch
    rw [hdrop] at hch
    exact hlook ch (List.mem_of_mem_drop hch)
  unfold DaprStreamer.getChunks
  rw [hmeta]
  dsimp only [Option.getD_some]
  have hlen : meta.chunkCount + 1 - (k + 1) = (datas.drop k).length := by
    rw [List.length_drop, hcc]
    omega
  rw [hlen, range_filterMap_chunks s2 sid (datas.drop k) k hlook',
    sortBySeq_of_sorted _ _
      ((expectedChunksFrom_pairwise sid (datas.drop k) k).imp
        fun h => Nat.le_of_lt h),
    hdrop]

/-- C7.  From a fresh stream, writing `n` chunks through the handle makes
`getChunks(streamId, 0)` return exactly the `n` chunks with sequences
`1 … n` in ascending order, and `getChunks(streamId, k)` return exactly the
chunks with sequences `k + 1` through the stored `chunkCount`, sorted by
sequence; `getChunks` of a stream with no metadata is empty. -/
theorem c7_getChunks_spec (s : Store) (streamId : String)
    (optionsMetadata : Option JsonValue) (t0 : Nat)
    (datas : List (JsonValue × Nat))
    (hfresh : DaprStreamer.getStreamMetadata s streamId = none) :
    (∀ (s' : Store) (sid : String) (fromSeq : Option Nat),
      DaprStreamer.getStreamMetadata s' sid = none →
      DaprStreamer.getChunks s' sid fromSeq = []) ∧
    (∃ w0 s1, DaprStreamer.createStream s streamId optionsMetadata t0 =
        .ok (w0, s1) ∧
      ∃ w s2 pubs, writeSeq w0 s1 datas = .ok (w, s2, pubs) ∧
        (expectedChunksFrom streamId 0 datas).map (fun ch => ch.sequence) =
          List.range' 1 datas.length ∧
        DaprStreamer.getChunks s2 streamId (some 0) =
          expectedChunksFrom streamId 0 datas ∧
        (∀ k, DaprStreamer.getChunks s2 streamId (some k) =
          (expectedChunksFrom streamId 0 datas).drop k)) := by
  constructor
  · intro s' sid fromSeq h
    unfold DaprStreamer.getChunks
    rw [h]
  · refine ⟨_, _, createStream_ok s streamId optionsMetadata t0 hfresh, ?_⟩
    have hmeta1 := createStream_metadata s streamId
      { id := streamId, isOpen := true, createdAt := t0, closedAt := none,
        chunkCount := 0, metadata := optionsMetadata }
    obtain ⟨w', s2, pubs, hws, hid', hopen', hseq', hmeta2, hchunks2, hframe2,
      hpubs2⟩ :=
      writeSeq_invariant streamId datas
        { id := streamId, openFlag := true, sequence := 0 } _ _ rfl rfl hmeta1 rfl
    dsimp only at hmeta2 hchunks2 hframe2 hpubs2
    rw [Nat.zero_add] at hmeta2
    refine ⟨w', s2, pubs, hws, ?_, ?_, ?_⟩
    · rw [expectedChunksFrom_sequences]
    · rw [getChunks_writeSeq s2 streamId datas _ 0 hmeta2 rfl hchunks2]
      simp
    · intro k
      exact getChunks_writeSeq s2 streamId datas _ k hmeta2 rfl hchunks2

/-- Witness for C7 at a concrete two-chunk stream. -/
theorem c7_getChunks_spec_witness :
    DaprStreamer.getStreamMetadata emptyStore "st1" = none ∧
    (∃ w0 s1, DaprStreamer.createStream emptyStore "st1" none 0 = .ok (w0, s1) ∧
      ∃ w s2 pubs,
        writeSeq w0 s1 [(⟨"a"⟩, 1), (⟨"b"⟩, 2)] = .ok (w, s2, pubs) ∧
        DaprStreamer.getChunks s2 "st1" (some 0) =
          expectedChunksFrom "st1" 0 [(⟨"a"⟩, 1), (⟨"b"⟩, 2)] ∧
        DaprStreamer.getChunks s2 "st1" (some 1) =
          (expectedChunksFrom "st1" 0 [(⟨"a"⟩, 1), (⟨"b"⟩, 2)]).drop 1) := by
  refine ⟨by decide, ?_⟩
  obtain ⟨-, w0, s1, hcreate, w, s2, pubs, hws, -, hget0, hgetk⟩ :=
    c7_getChunks_spec emptyStore "st1" none 0 [(⟨"a"⟩, 1), (⟨"b"⟩, 2)]
      (by decide)
  exact ⟨w0, s1, hcreate, w, s2, pubs, hws, hget0, hgetk 1⟩

/-! ## Claim C8: subscription replay and live delivery -/

/-- A store is chunk-sane for a stream when every stored chunk record's
`sequence` field agrees with the sequence in its key — true of everything
the write path ever stores. -/
def ChunkSane (s : Store) (sid : String) : Prop :=
  ∀ i c, s (chunkKey sid i) = some (.vChunk c) → c.sequence = i

/-- Over a chunk-sane store, `getChunks` returns chunks with strictly
increasing sequences, all above `fromSequence`. -/
theorem getChunks_sane (s : Store) (sid : String) (fromSeq : Option Nat)
    (hsane : ChunkSane s sid) :
    (∀ ch ∈ DaprStreamer.getChunks s sid fromSeq,
      fromSeq.getD 0 < ch.sequence) ∧
    (DaprStreamer.getChunks s sid fromSeq).Pairwise
      (fun a b => a.sequence < b.sequence) := by
  unfold DaprStreamer.getChunks
  cases hm : DaprStreamer.getStreamMetadata s sid with
  | none => exact ⟨fun ch hch => absurd hch (by simp), by simp⟩
  | some meta =>
    dsimp only
    set f : Nat → Option StreamChunk := fun seq =>
      match s (chunkKey sid seq) with
      | some (.vChunk c) => some c
      | _ => none
      with hf
    have hfs : ∀ a ch, f a = some ch → ch.sequence = a := by
      intro a ch h
      rw [hf] at h
      dsimp only at h
      cases hs : s (chunkKey sid a) with
      | none => rw [hs] at h; exact absurd h (by simp)
      | some v =>
        rw [hs] at h
        cases v with
        | vChunk c =>
          have : c = ch := by
            simpa using h
          subst this
          exact hsane a c hs
        | vRun r => exact absurd h (by simp)
        | vIndex l => exact absurd h (by simp)
        | vNat n => exact absurd h (by simp)
        | vStep st => exact absurd h (by simp)
        | vEvent e => exact absurd h (by simp)
        | vCache m => exact absurd h (by simp)
        | vHook hk => exact absurd h (by simp)
        | vMeta m => exact absurd h (by simp)
    have hpair : ((List.range' (fromSeq.getD 0 + 1)
        (meta.chunkCount + 1 - (fromSeq.getD 0 + 1))).filterMap f).Pairwise
        (fun a b => a.sequence < b.sequence) := by
      refine List.Pairwise.filterMap f ?_
        (List.pairwise_lt_range' (fromSeq.getD 0 + 1)
          (meta.chunkCount + 1 - (fromSeq.getD 0 + 1)))
      intro a a' hlt b hb b' hb'
      rw [hfs a b hb, hfs a' b' hb']
      exact hlt
    have hmemge : ∀ ch ∈ (List.range' (fromSeq.getD 0 + 1)
        (meta.chunkCount + 1 - (fromSeq.getD 0 + 1))).filterMap f,
        fromSeq.getD 0 < ch.sequence := by
      intro ch hch
      obtain ⟨a, ha, hfa⟩ := List.mem_filterMap.mp hch
      rw [hfs a ch hfa]
      have := (List.mem_range'_1.mp ha).1
      omega
    rw [sortBySeq_of_sorted _ _ (hpair.imp fun h => Nat.le_of_lt h)]
    exact ⟨hmemge, hpair⟩

/-- The replay fold advances the watermark to the last (largest) replayed
sequence and never deactivates the subscription. -/
theorem replay_fold_spec :
    ∀ (chunks : List StreamChunk) (sub : SubState),
      chunks.Pairwise (fun a b => a.sequence < b.sequence) →
      (∀ c ∈ chunks, sub.lastSequence < c.sequence) →
      (chunks.foldl (fun st c => { st with lastSequence := c.sequence })
          sub).active = sub.active ∧
      sub.lastSequence ≤
        (chunks.foldl (fun st c => { st with lastSequence := c.sequence })
          sub).lastSequence ∧
      (∀ c ∈ chunks, c.sequence ≤
        (chunks.foldl (fun st c => { st with lastSequence := c.sequence })
          sub).lastSequence) := by
  intro chunks
  induction chunks with
  | nil => intro sub _ _; exact ⟨rfl, le_refl _, by simp⟩
  | cons c cs ih =>
    intro sub hpair hgt
    have hpair' := List.pairwise_cons.mp hpair
    obtain ⟨hact, hle, hall⟩ := ih { sub with lastSequence := c.sequence }
      hpair'.2 (fun c' hc' => hpair'.1 c' hc')
    refine ⟨hact, ?_, ?_⟩
    · calc sub.lastSequence ≤ c.sequence :=
        Nat.le_of_lt (hgt c (List.mem_cons_self c cs))
      _ ≤ _ := hle
    · intro c' hc'
      rcases List.mem_cons.mp hc' with h | h
      · subst h; exact hle
      · exact hall c' h

/-- Invocations of the live phase: each delivered chunk is newer than the
watermark at the time, the delivered sequence list is strictly increasing,
and the watermark never moves backwards (when the handler does not throw). -/
theorem liveRun_spec :
    ∀ (msgs : List (StreamMsg × Bool)) (sub : SubState),
      (∀ p ∈ msgs, p.2 = true) →
      (∀ c ∈ (liveRun sub msgs).2, sub.lastSequence < c.sequence) ∧
      ((liveRun sub msgs).2.Pairwise (fun a b => a.sequence < b.sequence)) ∧
      sub.lastSequence ≤ (liveRun sub msgs).1.lastSequence ∧
      (∀ c ∈ (liveRun sub msgs).2,
        c.sequence ≤ (liveRun sub msgs).1.lastSequence) := by
  intro msgs
  induction msgs with
  | nil =>
    intro sub _
    exact ⟨by simp [liveRun], by simp [liveRun], le_refl _, by simp [liveRun]⟩
  | cons p rest ih =>
    intro sub hok
    obtain ⟨m, ok⟩ := p
    have hok1 : ok = true := hok (m, ok) (List.mem_cons_self _ _)
    subst hok1
    have hokrest : ∀ p ∈ rest, p.2 = true :=
      fun p hp => hok p (List.mem_cons_of_mem _ hp)
    cases m with
    | closedMsg sid t =>
      have hstep : liveRun sub ((StreamMsg.closedMsg sid t, true) :: rest) =
          ((liveRun sub rest).1, (liveRun sub rest).2) := by
        simp [liveRun, liveDeliver]
      rw [hstep]
      obtain ⟨h1, h2, h3, h4⟩ := ih sub hokrest
      exact ⟨h1, h2, h3, h4⟩
    | chunkMsg c =>
      by_cases hact : sub.active
      · by_cases hlt : sub.lastSequence < c.sequence
        · have hstep : liveRun sub ((StreamMsg.chunkMsg c, true) :: rest) =
              ((liveRun { sub with lastSequence := c.sequence } rest).1,
                c :: (liveRun { sub with lastSequence := c.sequence } rest).2) := by
            simp [liveRun, liveDeliver, hact, hlt]
          rw [hstep]
          obtain ⟨h1, h2, h3, h4⟩ :=
            ih { sub with lastSequence := c.sequence } hokrest
          dsimp only at h1 h3
          refine ⟨?_, ?_, ?_, ?_⟩
          · intro c' hc'
            rcases List.mem_cons.mp hc' with h | h
            · subst h; exact hlt
            · exact Nat.lt_trans hlt (h1 c' h)
          · exact List.Pairwise.cons (fun c' hc' => h1 c' hc') h2
          · exact le_trans (Nat.le_of_lt hlt) h3
          · intro c' hc'
            rcases List.mem_cons.mp hc' with h | h
            · subst h; exact h3
            · exact h4 c' h
        · have hstep : liveRun sub ((StreamMsg.chunkMsg c, true) :: rest) =
              ((liveRun sub rest).1, (liveRun sub rest).2) := by
            simp [liveRun, liveDeliver, hact, hlt]
          rw [hstep]
          exact ih sub hokrest
      · have hstep : liveRun sub ((StreamMsg.chunkMsg c, true) :: rest) =
            ((liveRun sub rest).1, (liveRun sub rest).2) := by
          simp [liveRun, liveDeliver, hact]
        rw [hstep]
        exact ih sub hokrest

/-- C8.  A subscription with `fromSequence = k` replays only chunks with
sequence `> k`; across the whole lifetime (replay followed by live delivery)
the delivered sequence numbers are strictly increasing — so the handler is
never invoked twice for the same sequence; live delivery only ever invokes
the handler when the incoming chunk's sequence exceeds the watermark, and
`stream_closed` sentinels never reach the handler.  (Chunk records are
assumed to sit under their own sequence key — what the write path maintains —
and live handler invocations are assumed to return normally: a throwing
handler leaves the watermark behind, which is the one way a sequence could
repeat.) -/
theorem c8_subscribe_no_duplicates (s : Store) (streamId : String)
    (fromSequence : Option Nat) (liveOnly : Bool)
    (msgs : List (StreamMsg × Bool))
    (hsane : ChunkSane s streamId)
    (hok : ∀ p ∈ msgs, p.2 = true) :
    (∀ c ∈ (subscribeReplay s streamId fromSequence liveOnly).2,
      fromSequence.getD 0 < c.sequence) ∧
    (((subscribeReplay s streamId fromSequence liveOnly).2 ++
      (liveRun (subscribeReplay s streamId fromSequence liveOnly).1 msgs).2).Pairwise
        (fun a b => a.sequence < b.sequence)) ∧
    (((subscribeReplay s streamId fromSequence liveOnly).2 ++
      (liveRun (subscribeReplay s streamId fromSequence liveOnly).1 msgs).2).map
        (fun c => c.sequence)).Nodup ∧
    (∀ (sub : SubState) (c : StreamChunk) (ok : Bool),
      ((liveDeliver sub (.chunkMsg c) ok).2).isSome →
        sub.lastSequence < c.sequence) ∧
    (∀ (sub : SubState) (sid : String) (t : Nat) (ok : Bool),
      liveDeliver sub (.closedMsg sid t) ok = (sub, none)) := by
  have hdeliver : ∀ (sub : SubState) (c : StreamChunk) (ok : Bool),
      ((liveDeliver sub (.chunkMsg c) ok).2).isSome →
        sub.lastSequence < c.sequence := by
    intro sub c ok h
    unfold liveDeliver at h
    by_cases hact : sub.active
    · by_cases hlt : sub.lastSequence < c.sequence
      · exact hlt
      · simp [hact, hlt] at h
    · simp [hact] at h
  have hmain : (∀ c ∈ (subscribeReplay s streamId fromSequence liveOnly).2,
      fromSequence.getD 0 < c.sequence) ∧
      (((subscribeReplay s streamId fromSequence liveOnly).2 ++
        (liveRun (subscribeReplay s streamId fromSequence liveOnly).1 msgs).2).Pairwise
          (fun a b => a.sequence < b.sequence)) := by
    unfold subscribeReplay
    by_cases hb : (!liveOnly &&
        (DaprStreamer.getStreamMetadata s streamId).isSome) = true
    · rw [if_pos hb]
      dsimp only
      obtain ⟨hgt, hpair⟩ := getChunks_sane s streamId fromSequence hsane
      obtain ⟨-, -, hmax⟩ := replay_fold_spec
        (DaprStreamer.getChunks s streamId fromSequence)
        { lastSequence := fromSequence.getD 0, active := true } hpair hgt
      obtain ⟨hlive1, hlive2, -, -⟩ := liveRun_spec msgs _ hok
      refine ⟨hgt, ?_⟩
      rw [List.pairwise_append]
      refine ⟨hpair, hlive2, ?_⟩
      intro a ha b hb'
      exact Nat.lt_of_le_of_lt (hmax a ha) (hlive1 b hb')
    · rw [if_neg hb]
      dsimp only
      obtain ⟨-, hlive2, -, -⟩ := liveRun_spec msgs
        { lastSequence := fromSequence.getD 0, active := true } hok
      exact ⟨by simp, by simpa using hlive2⟩
  refine ⟨hmain.1, hmain.2, ?_, hdeliver, fun sub sid t ok => rfl⟩
  have := hmain.2
  have hmap : (((subscribeReplay s streamId fromSequence liveOnly).2 ++
      (liveRun (subscribeReplay s streamId fromSequence liveOnly).1 msgs).2).map
        (fun c => c.sequence)).Pairwise (· < ·) :=
    (List.pairwise_map).mpr this
  exact hmap.imp fun h => Nat.ne_of_lt h

/-- Concrete store for the C8 witness: metadata plus two stored chunks. -/
def streamStoreW : Store :=
  ((emptyStore.set (streamKey "st1")
      (.vMeta { id := "st1", isOpen := true, createdAt := 0, closedAt := none,
                chunkCount := 2, metadata := none })).set
    (chunkKey "st1" 1) (.vChunk (mkChunk "st1" 1 (⟨"a"⟩, 1)))).set
    (chunkKey "st1" 2) (.vChunk (mkChunk "st1" 2 (⟨"b"⟩, 2)))

theorem streamStoreW_sane : ChunkSane streamStoreW "st1" := by
  intro i c h
  by_cases h2 : i = 2
  · subst h2
    rw [streamStoreW, Store.set_same] at h
    have : mkChunk "st1" 2 (⟨"b"⟩, 2) = c := by simpa using h
    rw [← this]
    rfl
  · by_cases h1 : i = 1
    · subst h1
      have hk2 : chunkKey "st1" 1 ≠ chunkKey "st1" 2 :=
        fun hh => by simpa using chunkKey_inj_seq hh
      rw [streamStoreW, Store.set_other _ _ _ _ hk2, Store.set_same] at h
      have : mkChunk "st1" 1 (⟨"a"⟩, 1) = c := by simpa using h
      rw [← this]
      rfl
    · have hk2 : chunkKey "st1" i ≠ chunkKey "st1" 2 :=
        fun hh => h2 (chunkKey_inj_seq hh)
      have hk1 : chunkKey "st1" i ≠ chunkKey "st1" 1 :=
        fun hh => h1 (chunkKey_inj_seq hh)
      have hks : chunkKey "st1" i ≠ streamKey "st1" := by
        simp [chunkKey, streamKey]
      rw [streamStoreW, Store.set_other _ _ _ _ hk2,
        Store.set_other _ _ _ _ hk1, Store.set_other _ _ _ _ hks] at h
      exact absurd h (by simp [emptyStore])

/-- Live messages for the C8 witness: a duplicate of the already-replayed
sequence 2 and a fresh sequence 3, plus a close sentinel. -/
def liveMsgsW : List (StreamMsg × Bool) :=
  [(.chunkMsg (mkChunk "st1" 2 (⟨"b"⟩, 2)), true),
   (.chunkMsg (mkChunk "st1" 3 (⟨"c"⟩, 3)), true),
   (.closedMsg "st1" 9, true)]

/-- Witness for C8 at a concrete subscription (`fromSequence = 1`). -/
theorem c8_subscribe_no_duplicates_witness :
    (ChunkSane streamStoreW "st1" ∧ (∀ p ∈ liveMsgsW, p.2 = true)) ∧
    ((∀ c ∈ (subscribeReplay streamStoreW "st1" (some 1) false).2,
        (some 1 : Option Nat).getD 0 < c.sequence) ∧
      (((subscribeReplay streamStoreW "st1" (some 1) false).2 ++
        (liveRun (subscribeReplay streamStoreW "st1" (some 1) false).1
          liveMsgsW).2).map (fun c => c.sequence)).Nodup) := by
  have h := c8_subscribe_no_duplicates streamStoreW "st1" (some 1) false
    liveMsgsW streamStoreW_sane (by decide)
  exact ⟨⟨streamStoreW_sane, by decide⟩, h.1, h.2.2.1⟩

end DaprWorld
